import Mathlib

/-!
# Verification of the HQCMeas hierarchical task database

Shallow embedding of `src/hqc_meas/tasks/tools/task_database.py`
(`TaskDatabase`, `DatabaseNode`) and of
`src/hqc_meas/tasks/tasks_util/array_tasks.py` (`ArrayExtremaTask.perform`).

Modelling conventions:

* Python `dict`s are modelled as association lists `List (String × α)`;
  `d[k] = v` is `ainsert`, `del d[k]` is `aerase`, `k in d` is
  `(alookup d k).isSome`.  The operations below only ever produce
  association lists without duplicate keys, matching `dict` semantics.
* A `DatabaseNode` is `Entry.node id children`; an identity tag `id : Nat`
  models Python object identity of the dict (fresh dicts receive fresh ids
  from the `nextId` counter carried by the state).  The tags play no role
  in any lookup; they only let us state that two paths reach the *same*
  node object.
* Raised exceptions are modelled by `Except DBErr`; the Python methods
  never mutate before raising, so an `.error` result stands for
  "exception raised, state unchanged".
* Python `path.split('/')` and `path.rpartition('/')[0]` are modelled
  character-exactly by `pathSplit` and `rpartFst` below.
-/

namespace HQC

/-! ## Association lists modelling Python dicts -/

/-- `alookup d k` models the Python lookup `d[k]` / `k in d`. -/
def alookup {α : Type} : List (String × α) → String → Option α
  | [], _ => none
  | (k', v) :: t, k => if k' = k then some v else alookup t k

/-- `ainsert d k v` models the Python assignment `d[k] = v`: replace the
binding of `k` if present, otherwise append a new binding. -/
def ainsert {α : Type} : List (String × α) → String → α → List (String × α)
  | [], k, v => [(k, v)]
  | (k', v') :: t, k, v =>
      if k' = k then (k, v) :: t else (k', v') :: ainsert t k v

/-- `aerase d k` models the Python statement `del d[k]`: remove the
binding of `k` (the first one, which is the only one for dicts). -/
def aerase {α : Type} : List (String × α) → String → List (String × α)
  | [], _ => []
  | (k', v') :: t, k => if k' = k then t else (k', v') :: aerase t k

theorem alookup_ainsert_self {α : Type} (d : List (String × α)) (k : String) (v : α) :
    alookup (ainsert d k v) k = some v := by
  induction d with
  | nil => simp [ainsert, alookup]
  | cons p t ih =>
      obtain ⟨k', v'⟩ := p
      by_cases h : k' = k <;> simp [ainsert, alookup, h, ih]

theorem alookup_ainsert_ne {α : Type} (d : List (String × α)) {k k' : String} (v : α)
    (h : k' ≠ k) : alookup (ainsert d k v) k' = alookup d k' := by
  have h' : ¬ (k = k') := fun hh => h hh.symm
  induction d with
  | nil => simp [ainsert, alookup, h']
  | cons p t ih =>
      obtain ⟨k₀, v₀⟩ := p
      by_cases h₀ : k₀ = k
      · subst h₀
        simp [ainsert, alookup, h']
      · by_cases h₁ : k₀ = k' <;> simp [ainsert, alookup, h₀, h₁, h, ih]

theorem alookup_aerase_self {α : Type} (d : List (String × α)) (k : String)
    (hnd : (d.map Prod.fst).Nodup) : alookup (aerase d k) k = none := by
  induction d with
  | nil => simp [aerase, alookup]
  | cons p t ih =>
      obtain ⟨k', v'⟩ := p
      simp only [List.map_cons, List.nodup_cons] at hnd
      by_cases h : k' = k
      · subst h
        have : alookup t k' = none := by
          clear ih
          induction t with
          | nil => simp [alookup]
          | cons q s ihs =>
              obtain ⟨kq, vq⟩ := q
              simp only [List.map_cons, List.mem_cons, List.nodup_cons,
                not_or] at hnd
              have hq : ¬ kq = k' := fun hh => hnd.1.1 hh.symm
              simp only [alookup, hq, if_false]
              exact ihs ⟨hnd.1.2, hnd.2.2⟩
        simp [aerase, this]
      · simp [aerase, alookup, h, ih hnd.2]

theorem alookup_aerase_ne {α : Type} (d : List (String × α)) {k k' : String}
    (h : k' ≠ k) : alookup (aerase d k) k' = alookup d k' := by
  have h' : ¬ (k = k') := fun hh => h hh.symm
  induction d with
  | nil => simp [aerase, alookup]
  | cons p t ih =>
      obtain ⟨k₀, v₀⟩ := p
      by_cases h₀ : k₀ = k
      · subst h₀
        simp [aerase, alookup, h']
      · by_cases h₁ : k₀ = k' <;> simp [aerase, alookup, h₀, h₁, h, ih]

/-! ## Python path strings: `split('/')` and `rpartition('/')[0]` -/

/-- Character-level model of Python `str.split('/')` (which for a non-empty
separator returns `['']` on the empty string and keeps empty fields). -/
def splitSlash : List Char → List (List Char)
  | [] => [[]]
  | c :: cs =>
      if c = '/' then [] :: splitSlash cs
      else
        match splitSlash cs with
        | [] => [[c]]
        | h :: t => (c :: h) :: t

/-- `pathSplit p` models the Python expression `p.split('/')`. -/
def pathSplit (s : String) : List String :=
  (splitSlash s.data).map List.asString

/-- `rpartFst p` models the Python expression `p.rpartition('/')[0]`:
everything before the last `'/'`, or `''` when there is no `'/'`. -/
def rpartFst (s : String) : String :=
  match s.data.reverse.dropWhile (fun c => c ≠ '/') with
  | [] => ""
  | _ :: rest => rest.reverse.asString

theorem splitSlash_ne_nil (l : List Char) : splitSlash l ≠ [] := by
  cases l with
  | nil => simp [splitSlash]
  | cons c cs =>
      by_cases h : c = '/'
      · simp [splitSlash, h]
      · simp only [splitSlash, h, if_false]
        cases splitSlash cs <;> simp

theorem splitSlash_no_slash (l : List Char) (h : '/' ∉ l) :
    splitSlash l = [l] := by
  induction l with
  | nil => simp [splitSlash]
  | cons c cs ih =>
      simp only [List.mem_cons, not_or] at h
      have hc : ¬ c = '/' := fun hh => h.1 hh.symm
      simp [splitSlash, hc, ih h.2]

theorem splitSlash_append (l₁ l₂ : List Char) (h : '/' ∉ l₁) :
    splitSlash (l₁ ++ '/' :: l₂) = l₁ :: splitSlash l₂ := by
  induction l₁ with
  | nil => simp [splitSlash]
  | cons c cs ih =>
      simp only [List.mem_cons, not_or] at h
      have hc : ¬ c = '/' := fun hh => h.1 hh.symm
      simp only [List.cons_append, splitSlash, hc, if_false]
      rw [show cs ++ '/' :: l₂ = cs.append ('/' :: l₂) from rfl] at ih
      rw [ih h.2]

theorem rpartFst_length_lt (s : String) (h : ¬ s = rpartFst s) :
    (rpartFst s).length < s.length := by
  have hdata : s.data ≠ [] := by
    intro hnil
    apply h
    have hs : s = "" := by
      cases s with
      | mk l => simp only [String.data] at hnil; simp [hnil]
    subst hs; rfl
  rw [show s.length = s.data.length from rfl]
  cases hd : s.data.reverse.dropWhile (fun c => c ≠ '/') with
  | nil =>
      have : rpartFst s = "" := by unfold rpartFst; rw [hd]
      rw [this]
      exact List.length_pos.mpr hdata
  | cons c rest =>
      have hlen : (c :: rest).length ≤ s.data.reverse.length :=
        (hd ▸ List.dropWhile_sublist (l := s.data.reverse)
          (p := fun c => c ≠ '/')).length_le
      have : rpartFst s = rest.reverse.asString := by unfold rpartFst; rw [hd]
      rw [this]
      have : (rest.reverse.asString).length = rest.length := by
        simp [List.asString, String.length]
      rw [this]
      simp only [List.length_cons, List.length_reverse] at hlen
      omega

/-- `rpartition('/')[0]` of a string without `'/'` is the empty string. -/
theorem rpartFst_no_slash (s : String) (h : '/' ∉ s.data) : rpartFst s = "" := by
  have : s.data.reverse.dropWhile (fun c => c ≠ '/') = [] := by
    rw [List.dropWhile_eq_nil_iff]
    intro x hx
    simp only [decide_eq_true_eq]
    intro hh
    exact h (hh ▸ List.mem_reverse.mp hx)
  unfold rpartFst
  rw [this]

/-- `rpartition('/')[0]` cuts exactly the last slash-free component. -/
theorem rpartFst_append (a : String) (c : List Char) (h : '/' ∉ c) :
    rpartFst ⟨a.data ++ '/' :: c⟩ = a := by
  have hdrop : (a.data ++ '/' :: c).reverse.dropWhile (fun x => x ≠ '/') =
      '/' :: a.data.reverse := by
    rw [List.reverse_append, List.reverse_cons, List.append_assoc,
      List.dropWhile_append]
    have h₁ : c.reverse.dropWhile (fun x => x ≠ '/') = [] := by
      rw [List.dropWhile_eq_nil_iff]
      intro x hx
      simp only [decide_eq_true_eq]
      intro hh
      exact h (hh ▸ List.mem_reverse.mp hx)
    rw [h₁]
    simp [List.dropWhile]
  unfold rpartFst
  rw [show (String.mk (a.data ++ '/' :: c)).data = a.data ++ '/' :: c from rfl,
    hdrop]
  cases a with
  | mk l => simp [List.asString]

/-! ## The database model

`Entry` is what a `TaskDatabase` dict maps keys to: either a stored value
(`val`) or a `DatabaseNode` (`node`).  The `Nat` tag on `node` models the
object identity of the Python dict; it is never consulted by lookups. -/

inductive Entry (V : Type) : Type where
  | val : V → Entry V
  | node : Nat → List (String × Entry V) → Entry V

/-- Exceptions raised by the database methods. -/
inductive DBErr : Type where
  /-- `ValueError` raised by `_go_to_path` on a missing path component. -/
  | invalidPath : DBErr
  /-- `KeyError` (missing database entry in `get_value`, or missing
  `old_name` in `rename_node`). -/
  | keyError : DBErr
  /-- `ValueError` raised by `delete_value` / `delete_node` on a missing
  entry. -/
  | valueError : DBErr
  /-- `TypeError` raised by a dict operation applied to a plain stored
  value (a path component that names a value rather than a node). -/
  | typeError : DBErr
  /-- Marker for inputs on which the Python loop of
  `list_accessible_entries` never terminates. -/
  | nonTermination : DBErr
  deriving DecidableEq

/-- The state of a `TaskDatabase`: the `_database` root dict, plus the
allocation counter backing the object-identity tags (the root dict has
identity `0`, every `DatabaseNode()` created by `create_node` receives the
next fresh identity). -/
structure TaskDatabase (V : Type) : Type where
  database : List (String × Entry V)
  nextId : Nat

/-- A freshly constructed `TaskDatabase` (`_database = {}`). -/
def initDB (V : Type) : TaskDatabase V := ⟨[], 1⟩

/-- The loop of `_go_to_path`: follow the keys from a starting entry.
Stepping by a key requires the current entry to be a dict (`node`); the
entry stepped into may itself be a plain value, which is returned if the
keys are exhausted (exactly as in the Python loop, where `node = node[key]`
may produce a non-dict and the next `key in node` raises `TypeError`). -/
def goEntry {V : Type} : Entry V → List String → Except DBErr (Entry V)
  | e, [] => .ok e
  | .node _ ch, k :: ks =>
      match alookup ch k with
      | some e' => goEntry e' ks
      | none => .error .invalidPath
  | .val _, _ :: _ => .error .typeError

/-- `keys = path.split('/'); del keys[0]` from `_go_to_path`. -/
def tailKeys (path : String) : List String := (pathSplit path).tail

/-- `TaskDatabase._go_to_path` (task_database.py lines 301-328): return the
root for the path `'root'`, otherwise split the path on `'/'`, drop the
first component unconditionally, and follow the remaining keys from the
root. -/
def goToPath {V : Type} (db : TaskDatabase V) (path : String) :
    Except DBErr (Entry V) :=
  if path = "root" then .ok (.node 0 db.database)
  else goEntry (.node 0 db.database) (tailKeys path)

/-- `_go_to_path(path)` followed by a mutation `f` of the dict of the node
reached (the Python methods mutate that dict in place through the alias
returned by `_go_to_path`; here the update is threaded back functionally).
`f` also returns the method's result value. -/
def modifyL {V α : Type} :
    List (String × Entry V) → List String →
    (List (String × Entry V) → Except DBErr (List (String × Entry V) × α)) →
    Except DBErr (List (String × Entry V) × α)
  | ch, [], f => f ch
  | ch, k :: ks, f =>
      match alookup ch k with
      | none => .error .invalidPath
      | some (.val _) => .error .typeError
      | some (.node i ch') =>
          match modifyL ch' ks f with
          | .error e => .error e
          | .ok (ch'', a) => .ok (ainsert ch k (.node i ch''), a)

/-- Wrapper of `modifyL` starting at the root, mirroring the
`path = 'root'` special case of `_go_to_path`. -/
def modifyDB {V α : Type} (db : TaskDatabase V) (path : String)
    (f : List (String × Entry V) → Except DBErr (List (String × Entry V) × α)) :
    Except DBErr (List (String × Entry V) × α) :=
  if path = "root" then f db.database
  else modifyL db.database (tailKeys path) f

/-- Pure description of the tree produced by a successful `modifyL`: the
children of the node at `keys` are replaced by `newCh`. -/
def replaceL {V : Type} :
    List (String × Entry V) → List String → List (String × Entry V) →
    List (String × Entry V)
  | _, [], newCh => newCh
  | ch, k :: ks, newCh =>
      match alookup ch k with
      | some (.node i ch') => ainsert ch k (.node i (replaceL ch' ks newCh))
      | _ => ch

/-- `TaskDatabase.set_value` (lines 34-72): reach the node, remember
whether the internal key `'_' + value_name` was absent, store the value
under it, and report whether a new entry was created.  (The `notifier`
event and the `_running` lock are not part of the state model; see the
lock-trace section.) -/
def set_value {V : Type} (db : TaskDatabase V) (node_path value_name : String)
    (value : V) : Except DBErr (TaskDatabase V × Bool) :=
  match modifyDB db node_path (fun ch =>
      let key := "_" ++ value_name
      .ok (ainsert ch key (.val value), (alookup ch key).isNone)) with
  | .error e => .error e
  | .ok (ch', newVal) => .ok ({ db with database := ch' }, newVal)

/-- `TaskDatabase.get_value` (lines 74-112): look for `'_' + value_name`
at the node reached by `assumed_path`; when absent, retry at
`assumed_path.rpartition('/')[0]` unless that walk has stalled, in which
case raise `KeyError`. -/
def get_value {V : Type} (db : TaskDatabase V)
    (assumed_path value_name : String) : Except DBErr (Entry V) :=
  match goToPath db assumed_path with
  | .error e => .error e
  | .ok (.val _) => .error .typeError
  | .ok (.node _ ch) =>
      match alookup ch ("_" ++ value_name) with
      | some v => .ok v
      | none =>
          let newPath := rpartFst assumed_path
          if h : assumed_path = newPath then .error .keyError
          else get_value db newPath value_name
termination_by assumed_path.length
decreasing_by exact rpartFst_length_lt assumed_path h

/-- `TaskDatabase.delete_value` (lines 114-143): remove the entry if
present, otherwise raise `ValueError`. -/
def delete_value {V : Type} (db : TaskDatabase V)
    (node_path value_name : String) : Except DBErr (TaskDatabase V) :=
  match modifyDB db node_path (fun ch =>
      let key := "_" ++ value_name
      if (alookup ch key).isSome then .ok (aerase ch key, ())
      else .error .valueError) with
  | .error e => .error e
  | .ok (ch', _) => .ok { db with database := ch' }

/-- `TaskDatabase.create_node` (lines 226-244): store a fresh
`DatabaseNode()` under `node_name` in the parent node's dict. -/
def create_node {V : Type} (db : TaskDatabase V)
    (parent_path node_name : String) : Except DBErr (TaskDatabase V) :=
  match modifyDB db parent_path (fun ch =>
      .ok (ainsert ch node_name (.node db.nextId []), ())) with
  | .error e => .error e
  | .ok (ch', _) => .ok ⟨ch', db.nextId + 1⟩

/-- `TaskDatabase.rename_node` (lines 246-265):
`parent[new_name] = parent[old_name]; del parent[old_name]` — reading
`parent[old_name]` raises `KeyError` when absent. -/
def rename_node {V : Type} (db : TaskDatabase V)
    (parent_path new_name old_name : String) : Except DBErr (TaskDatabase V) :=
  match modifyDB db parent_path (fun ch =>
      match alookup ch old_name with
      | none => .error .keyError
      | some e => .ok (aerase (ainsert ch new_name e) old_name, ())) with
  | .error e => .error e
  | .ok (ch', _) => .ok { db with database := ch' }

/-- `TaskDatabase.delete_node` (lines 267-290): delete the entry if
present, otherwise raise `ValueError`. -/
def delete_node {V : Type} (db : TaskDatabase V)
    (parent_path node_name : String) : Except DBErr (TaskDatabase V) :=
  match modifyDB db parent_path (fun ch =>
      if (alookup ch node_name).isSome then .ok (aerase ch node_name, ())
      else .error .valueError) with
  | .error e => .error e
  | .ok (ch', _) => .ok { db with database := ch' }

/-! ## Canonical paths

`mkPath ["a", "b"] = "root/a/b"` builds the canonical string form of a
path; `NoSlash cs` says no component contains the separator.  Every path
string actually used by the tasks layer has this form. -/

/-- Canonical path string of a list of components below the root. -/
def mkPath (cs : List String) : String :=
  cs.foldl (fun acc c => acc ++ "/" ++ c) "root"

/-- No component contains the path separator. -/
def NoSlash (cs : List String) : Prop := ∀ c ∈ cs, '/' ∉ c.data

instance : DecidablePred NoSlash := fun cs =>
  inferInstanceAs (Decidable (∀ c ∈ cs, '/' ∉ c.data))

theorem mkPath_append (cs : List String) (c : String) :
    mkPath (cs ++ [c]) = mkPath cs ++ "/" ++ c := by
  unfold mkPath
  rw [List.foldl_append]
  rfl

/-- Splitting after appending a slash-free component appends one field. -/
theorem splitSlash_append_right (l₁ l₂ : List Char) (h : '/' ∉ l₂) :
    splitSlash (l₁ ++ '/' :: l₂) = splitSlash l₁ ++ [l₂] := by
  induction l₁ with
  | nil => simp [splitSlash, splitSlash_no_slash l₂ h]
  | cons c cs ih =>
      by_cases hc : c = '/'
      · simp [splitSlash, hc, ih]
      · simp only [List.cons_append, splitSlash, hc, if_false]
        rw [show cs ++ '/' :: l₂ = cs.append ('/' :: l₂) from rfl] at ih
        rw [ih]
        cases hh : splitSlash cs with
        | nil => exact absurd hh (splitSlash_ne_nil cs)
        | cons hsp tsp => simp

theorem data_mkPath_append (cs : List String) (c : String) :
    (mkPath (cs ++ [c])).data = (mkPath cs).data ++ '/' :: c.data := by
  rw [mkPath_append]
  simp [String.data_append]

/-- `mkPath cs` splits back into `"root" :: cs`. -/
theorem pathSplit_mkPath (cs : List String) (h : NoSlash cs) :
    pathSplit (mkPath cs) = "root" :: cs := by
  induction cs using List.reverseRecOn with
  | nil => rfl
  | append_singleton cs c ih =>
      have hcs : NoSlash cs := fun x hx => h x (List.mem_append_left _ hx)
      have hc : '/' ∉ c.data := h c (List.mem_append_right _ (by simp))
      unfold pathSplit
      rw [data_mkPath_append, splitSlash_append_right _ _ hc, List.map_append]
      rw [show (splitSlash (mkPath cs).data).map List.asString =
        pathSplit (mkPath cs) from rfl, ih hcs]
      have : c.data.asString = c := by cases c; rfl
      simp [this]

theorem mkPath_injective {cs₁ cs₂ : List String} (h₁ : NoSlash cs₁)
    (h₂ : NoSlash cs₂) (h : mkPath cs₁ = mkPath cs₂) : cs₁ = cs₂ := by
  have := pathSplit_mkPath cs₁ h₁
  rw [h, pathSplit_mkPath cs₂ h₂] at this
  simpa using this.symm

theorem mkPath_eq_root_iff (cs : List String) (h : NoSlash cs) :
    mkPath cs = "root" ↔ cs = [] := by
  constructor
  · intro hh
    have := pathSplit_mkPath cs h
    rw [hh] at this
    have hroot : pathSplit "root" = ["root"] := rfl
    rw [hroot] at this
    simpa using this
  · intro hh; subst hh; rfl

/-- On a canonical path, `_go_to_path` follows exactly the components. -/
theorem goToPath_mkPath {V : Type} (db : TaskDatabase V) (cs : List String)
    (h : NoSlash cs) :
    goToPath db (mkPath cs) = goEntry (.node 0 db.database) cs := by
  unfold goToPath
  by_cases hr : mkPath cs = "root"
  · have : cs = [] := (mkPath_eq_root_iff cs h).mp hr
    subst this
    simp [hr, goEntry]
  · have : cs ≠ [] := fun hh => hr ((mkPath_eq_root_iff cs h).mpr hh)
    rw [if_neg hr]
    unfold tailKeys
    rw [pathSplit_mkPath cs h]
    rfl

/-- On a canonical path, `modifyDB` follows exactly the components. -/
theorem modifyDB_mkPath {V α : Type} (db : TaskDatabase V) (cs : List String)
    (h : NoSlash cs)
    (f : List (String × Entry V) → Except DBErr (List (String × Entry V) × α)) :
    modifyDB db (mkPath cs) f = modifyL db.database cs f := by
  unfold modifyDB
  by_cases hr : mkPath cs = "root"
  · have : cs = [] := (mkPath_eq_root_iff cs h).mp hr
    subst this
    simp [hr, modifyL]
  · rw [if_neg hr]
    unfold tailKeys
    rw [pathSplit_mkPath cs h]
    rfl

/-- The upward step of `get_value` on a canonical path drops the last
component. -/
theorem rpartFst_mkPath (cs : List String) (c : String) (h : '/' ∉ c.data) :
    rpartFst (mkPath (cs ++ [c])) = mkPath cs := by
  have : mkPath (cs ++ [c]) = ⟨(mkPath cs).data ++ '/' :: c.data⟩ := by
    cases hm : mkPath (cs ++ [c]) with
    | mk l =>
        have := data_mkPath_append cs c
        rw [hm] at this
        simp only [String.data] at this
        rw [this]
  rw [this, rpartFst_append _ _ h]

theorem rpartFst_root : rpartFst "root" = "" := rfl

/-! ## Scoped lookup (claim C1) -/

/-- Traversal distributes over list append. -/
theorem goEntry_append {V : Type} (cs₁ : List String) (e : Entry V)
    (cs₂ : List String) :
    goEntry e (cs₁ ++ cs₂) =
      match goEntry e cs₁ with
      | .ok e' => goEntry e' cs₂
      | .error er => .error er := by
  induction cs₁ generalizing e with
  | nil => simp [goEntry]
  | cons k ks ih =>
      cases e with
      | val v => simp [goEntry]
      | node i ch =>
          simp only [List.cons_append, goEntry]
          cases alookup ch k with
          | none => simp
          | some e' => exact ih e'

/-- Specification-side definition, following the words of claim C1: the
value bound to `key` at the nearest node on the chain from the node at
`cs` up to the root (`ch` being the root's dict) that holds an entry named
`key`; `none` when no node on the chain holds one. -/
def scopeLookup {V : Type} (ch : List (String × Entry V)) :
    List String → String → Option (Entry V)
  | [], key => alookup ch key
  | k :: ks, key =>
      match alookup ch k with
      | some (.node _ ch') =>
          match scopeLookup ch' ks key with
          | some e => some e
          | none => alookup ch key
      | _ => none

theorem scopeLookup_append {V : Type} (cs : List String)
    (ch₀ : List (String × Entry V)) (c key : String) (j i : Nat)
    (ch : List (String × Entry V))
    (hres : goEntry (.node j ch₀) (cs ++ [c]) = .ok (.node i ch)) :
    scopeLookup ch₀ (cs ++ [c]) key =
      match alookup ch key with
      | some e => some e
      | none => scopeLookup ch₀ cs key := by
  induction cs generalizing ch₀ j with
  | nil =>
      simp only [List.nil_append, goEntry] at hres
      cases hl : alookup ch₀ c with
      | none => rw [hl] at hres; exact absurd hres (by simp)
      | some e' =>
          rw [hl] at hres
          cases e' with
          | val v => simp [goEntry] at hres
          | node j' ch₁ =>
              have hres' : Entry.node j' ch₁ = Entry.node (V := V) i ch := by
                simpa [goEntry] using hres
              cases hres'
              simp only [List.nil_append, scopeLookup, hl]
  | cons k ks ih =>
      simp only [List.cons_append, goEntry] at hres
      cases hl : alookup ch₀ k with
      | none => rw [hl] at hres; exact absurd hres (by simp)
      | some e' =>
          rw [hl] at hres
          cases e' with
          | val v =>
              exfalso
              cases ks <;> simp [goEntry] at hres
          | node j' ch₁ =>
              have hres' : goEntry (Entry.node j' ch₁) (ks ++ [c]) =
                  Except.ok (Entry.node i ch) := hres
              have hrec := ih ch₁ j' hres'
              simp only [List.cons_append, List.append_eq, scopeLookup, hl]
              rw [hrec]
              cases alookup ch key <;> simp

/-- One-step unfolding of `get_value`. -/
theorem get_value_eq {V : Type} (db : TaskDatabase V)
    (assumed_path value_name : String) :
    get_value db assumed_path value_name =
      match goToPath db assumed_path with
      | .error e => .error e
      | .ok (.val _) => .error .typeError
      | .ok (.node _ ch) =>
          match alookup ch ("_" ++ value_name) with
          | some v => .ok v
          | none =>
              if assumed_path = rpartFst assumed_path then .error .keyError
              else get_value db (rpartFst assumed_path) value_name := by
  rw [get_value]
  cases goToPath db assumed_path with
  | error e => rfl
  | ok e =>
      cases e with
      | val v => rfl
      | node i ch =>
          simp only []
          cases alookup ch ("_" ++ value_name) with
          | some v => rfl
          | none => split <;> rfl

theorem mkPath_append_ne (cs : List String) (c : String) :
    mkPath (cs ++ [c]) ≠ mkPath cs := by
  intro h
  have := data_mkPath_append cs c
  rw [h] at this
  have hlen := congrArg List.length this
  simp at hlen

/-- Auxiliary computation: `get_value` at the empty path reads the root
dict once and raises `KeyError` when the name is absent there. -/
theorem get_value_empty {V : Type} (db : TaskDatabase V) (n : String) :
    get_value db "" n =
      match alookup db.database ("_" ++ n) with
      | some v => .ok v
      | none => .error .keyError := by
  rw [get_value_eq]
  have h1 : goToPath db "" = .ok (.node 0 db.database) := rfl
  simp only [h1]
  have h2 : rpartFst "" = "" := rfl
  cases hh : alookup db.database ("_" ++ n) with
  | some v => simp [hh]
  | none => simp [hh, h2]

/-- **C1.** On a canonical valid path, `get_value` returns the entry bound
to the name at the nearest node of the upward chain, and raises `KeyError`
when no node on the chain binds the name. -/
theorem get_value_scoped {V : Type} (db : TaskDatabase V) (cs : List String)
    (n : String) (hns : NoSlash cs) (i : Nat) (ch : List (String × Entry V))
    (hres : goEntry (.node 0 db.database) cs = .ok (.node i ch)) :
    get_value db (mkPath cs) n =
      match scopeLookup db.database cs ("_" ++ n) with
      | some e => .ok e
      | none => .error .keyError := by
  induction cs using List.reverseRecOn generalizing i ch with
  | nil =>
      simp only [goEntry] at hres
      cases hres
      rw [show mkPath [] = "root" from rfl, get_value_eq]
      have h1 : goToPath db "root" = .ok (.node 0 db.database) := rfl
      have h2 : ("root" : String) ≠ "" := by decide
      simp only [h1, scopeLookup]
      cases hl : alookup db.database ("_" ++ n) with
      | some v => simp [hl]
      | none =>
          simp only [hl, rpartFst_root, if_neg h2, get_value_empty]
  | append_singleton cs' c ih =>
      have hns' : NoSlash cs' := fun x hx => hns x (List.mem_append_left _ hx)
      have hc : '/' ∉ c.data := hns c (List.mem_append_right _ (by simp))
      -- decompose the resolution of cs' ++ [c]
      rw [goEntry_append] at hres
      cases hres₀ : goEntry (Entry.node 0 db.database) cs' with
      | error er => rw [hres₀] at hres; simp at hres
      | ok e₀ =>
          rw [hres₀] at hres
          cases e₀ with
          | val v => simp [goEntry] at hres
          | node i₀ ch₀ =>
              have hres' : goEntry (Entry.node i₀ ch₀) [c] =
                  Except.ok (Entry.node i ch) := hres
              have hsl := scopeLookup_append cs' db.database c ("_" ++ n) 0 i ch
                (by rw [goEntry_append, hres₀]; exact hres)
              have hne : mkPath (cs' ++ [c]) ≠ mkPath cs' :=
                mkPath_append_ne cs' c
              rw [get_value_eq, goToPath_mkPath db _ hns, goEntry_append, hres₀]
              simp only [hres', hsl]
              cases hl : alookup ch ("_" ++ n) with
              | some v => simp [hl]
              | none =>
                  simp only [hl, rpartFst_mkPath cs' c hc, if_neg hne]
                  exact ih hns' i₀ ch₀ hres₀

/-! ## Cost of the upward walk (claim C4)

`get_value` is a total function of this development (its recursion is
well-founded because each recursive call strictly shortens the path
string, cf. `rpartFst_length_lt` in `get_value`'s termination proof), so
termination holds by construction; `getValueVisits` additionally counts
how many nodes the walk visits (one `_go_to_path` call per recursion
step, mirroring `get_value` step for step). -/

def getValueVisits {V : Type} (db : TaskDatabase V)
    (assumed_path value_name : String) : Nat :=
  match goToPath db assumed_path with
  | .error _ => 1
  | .ok (.val _) => 1
  | .ok (.node _ ch) =>
      match alookup ch ("_" ++ value_name) with
      | some _ => 1
      | none =>
          if h : assumed_path = rpartFst assumed_path then 1
          else 1 + getValueVisits db (rpartFst assumed_path) value_name
termination_by assumed_path.length
decreasing_by exact rpartFst_length_lt assumed_path h

theorem getValueVisits_eq {V : Type} (db : TaskDatabase V)
    (assumed_path value_name : String) :
    getValueVisits db assumed_path value_name =
      match goToPath db assumed_path with
      | .error _ => 1
      | .ok (.val _) => 1
      | .ok (.node _ ch) =>
          match alookup ch ("_" ++ value_name) with
          | some _ => 1
          | none =>
              if assumed_path = rpartFst assumed_path then 1
              else 1 + getValueVisits db (rpartFst assumed_path) value_name := by
  rw [getValueVisits]
  cases goToPath db assumed_path with
  | error e => rfl
  | ok e =>
      cases e with
      | val v => rfl
      | node i ch =>
          simp only []
          cases alookup ch ("_" ++ value_name) with
          | some v => rfl
          | none => split <;> rfl

theorem getValueVisits_empty {V : Type} (db : TaskDatabase V) (n : String) :
    getValueVisits db "" n = 1 := by
  rw [getValueVisits_eq]
  have h1 : goToPath db "" = .ok (.node 0 db.database) := rfl
  have h2 : rpartFst "" = "" := rfl
  simp only [h1]
  cases alookup db.database ("_" ++ n) <;> simp [h2]

/-- Every string containing `'/'` splits around its last `'/'`. -/
theorem exists_last_slash (l : List Char) (h : '/' ∈ l) :
    ∃ a b, l = a ++ '/' :: b ∧ '/' ∉ b := by
  induction l with
  | nil => simp at h
  | cons c cs ih =>
      by_cases hcs : '/' ∈ cs
      · obtain ⟨a, b, hab, hb⟩ := ih hcs
        exact ⟨c :: a, b, by rw [hab]; rfl, hb⟩
      · have hc : c = '/' := by
          rcases List.mem_cons.mp h with h1 | h2
          · exact h1.symm
          · exact absurd h2 hcs
        exact ⟨[], cs, by simp [hc], hcs⟩

theorem getValueVisits_le_aux {V : Type} (db : TaskDatabase V) :
    ∀ (N : Nat) (p : String), p.length ≤ N → ∀ n : String,
      getValueVisits db p n ≤ (pathSplit p).length + 1 := by
  intro N
  induction N with
  | zero =>
      intro p hp n
      have hdata : p = "" := by
        cases p with
        | mk l =>
            cases l with
            | nil => rfl
            | cons a b => simp [String.length] at hp
      subst hdata
      rw [getValueVisits_empty]
      omega
  | succ N ihN =>
      intro p hp n
      rw [getValueVisits_eq]
      cases goToPath db p with
      | error e => exact Nat.succ_le_succ (Nat.zero_le _)
      | ok e =>
          cases e with
          | val v => exact Nat.succ_le_succ (Nat.zero_le _)
          | node i ch =>
              simp only []
              cases alookup ch ("_" ++ n) with
              | some v => exact Nat.succ_le_succ (Nat.zero_le _)
              | none =>
                  simp only []
                  by_cases heq : p = rpartFst p
                  · rw [if_pos heq]; omega
                  · rw [if_neg heq]
                    have hlt := rpartFst_length_lt p heq
                    by_cases hs : '/' ∈ p.data
                    · obtain ⟨a, b, hab, hb⟩ := exists_last_slash p.data hs
                      have hpa : p = ⟨a ++ '/' :: b⟩ := by
                        cases p with
                        | mk l => simp only [String.data] at hab; rw [hab]
                      have hr : rpartFst p = ⟨a⟩ := by
                        rw [hpa]
                        exact rpartFst_append ⟨a⟩ b hb
                      have hcomp : (pathSplit p).length =
                          (pathSplit ⟨a⟩).length + 1 := by
                        rw [hpa]
                        unfold pathSplit
                        rw [show (String.mk (a ++ '/' :: b)).data =
                          a ++ '/' :: b from rfl,
                          splitSlash_append_right a b hb]
                        simp
                      have hrec := ihN (rpartFst p)
                        (by omega) n
                      rw [hr] at hrec
                      rw [hcomp, hr]
                      omega
                    · have hr : rpartFst p = "" := rpartFst_no_slash p hs
                      have hcomp : (pathSplit p).length = 1 := by
                        unfold pathSplit
                        rw [splitSlash_no_slash p.data hs]
                        rfl
                      rw [hr, getValueVisits_empty, hcomp]

/-- **C4.** The upward walk of `get_value` visits at most one node per
path component plus one: `getValueVisits` (which counts the `_go_to_path`
calls made by `get_value`, one per recursion step) is bounded by the
number of `'/'`-separated components of the path plus one.  Termination of
the walk itself holds by construction: `get_value` is defined by
well-founded recursion on the path length, each recursive step passing to
`rpartition('/')[0]`, which strictly shortens the path. -/
theorem getValueVisits_bound {V : Type} (db : TaskDatabase V)
    (p n : String) :
    getValueVisits db p n ≤ (pathSplit p).length + 1 :=
  getValueVisits_le_aux db p.length p le_rfl n

/-! ## Node identities and reachable states (claim C2)

`idsE`/`idsL` collect the identity tags of all `DatabaseNode`s in a
subtree.  The key invariant of reachable states is that all identities in
the database (including the root's, `0`) are pairwise distinct, which is
exactly "no dict is aliased from two places" in the Python original. -/

mutual
def idsE {V : Type} : Entry V → List Nat
  | .val _ => []
  | .node i ch => i :: idsL ch

def idsL {V : Type} : List (String × Entry V) → List Nat
  | [] => []
  | (_, e) :: t => idsE e ++ idsL t
end

theorem idsE_val {V : Type} (v : V) : idsE (Entry.val v) = [] := by
  rw [idsE]

theorem idsE_node {V : Type} (i : Nat) (ch : List (String × Entry V)) :
    idsE (Entry.node i ch) = i :: idsL ch := by
  rw [idsE]

theorem idsL_nil {V : Type} : idsL ([] : List (String × Entry V)) = [] := by
  rw [idsL]

theorem idsL_cons {V : Type} (k : String) (e : Entry V)
    (t : List (String × Entry V)) :
    idsL ((k, e) :: t) = idsE e ++ idsL t := by
  rw [idsL]

/-- An entry found by lookup contributes a sub-multiset of the ids. -/
theorem alookup_ids_le {V : Type} (ch : List (String × Entry V))
    (k : String) (e : Entry V) (h : alookup ch k = some e) :
    (idsE e : Multiset Nat) ≤ (idsL ch : Multiset Nat) := by
  induction ch with
  | nil => simp [alookup] at h
  | cons p t ih =>
      obtain ⟨k', e'⟩ := p
      rw [idsL_cons, ← Multiset.coe_add]
      by_cases hk : k' = k
      · simp only [alookup, hk, if_true] at h
        cases h
        exact Multiset.le_add_right _ _
      · simp only [alookup, hk, if_false] at h
        exact le_trans (ih h) (Multiset.le_add_left _ _)

/-- Entries found under two distinct keys contribute disjoint portions. -/
theorem alookup_pair_ids_le {V : Type} (ch : List (String × Entry V))
    {k₁ k₂ : String} {e₁ e₂ : Entry V} (hk : k₁ ≠ k₂)
    (h₁ : alookup ch k₁ = some e₁) (h₂ : alookup ch k₂ = some e₂) :
    (idsE e₁ : Multiset Nat) + (idsE e₂ : Multiset Nat) ≤
      (idsL ch : Multiset Nat) := by
  induction ch with
  | nil => simp [alookup] at h₁
  | cons p t ih =>
      obtain ⟨k', e'⟩ := p
      rw [idsL_cons, ← Multiset.coe_add]
      by_cases hx : k' = k₁
      · simp only [alookup, hx, if_true] at h₁
        cases h₁
        have hx₂ : ¬ k' = k₂ := fun hh => hk (hx.symm.trans hh)
        simp only [alookup, hx₂, if_false] at h₂
        exact add_le_add_left (alookup_ids_le t k₂ e₂ h₂) _
      · simp only [alookup, hx, if_false] at h₁
        by_cases hy : k' = k₂
        · simp only [alookup, hy, if_true] at h₂
          cases h₂
          calc (idsE e₁ : Multiset Nat) + (idsE e₂ : Multiset Nat)
              = (idsE e₂ : Multiset Nat) + (idsE e₁ : Multiset Nat) :=
                add_comm _ _
            _ ≤ (idsE e₂ : Multiset Nat) + (idsL t : Multiset Nat) :=
                add_le_add_left (alookup_ids_le t k₁ e₁ h₁) _
        · simp only [alookup, hy, if_false] at h₂
          exact le_trans (ih h₁ h₂) (Multiset.le_add_left _ _)

/-- The identity of any node reached by traversal occurs among the ids. -/
theorem goEntry_id_mem {V : Type} (cs : List String) (e : Entry V)
    (j : Nat) (ch' : List (String × Entry V))
    (h : goEntry e cs = .ok (.node j ch')) : j ∈ idsE e := by
  induction cs generalizing e with
  | nil =>
      simp only [goEntry] at h
      cases h
      rw [idsE_node]
      exact List.mem_cons_self _ _
  | cons k ks ih =>
      cases e with
      | val v => simp [goEntry] at h
      | node i ch =>
          simp only [goEntry] at h
          cases hl : alookup ch k with
          | none => rw [hl] at h; simp at h
          | some e' =>
              rw [hl] at h
              have hmem : j ∈ idsE e' := ih e' h
              have hle := alookup_ids_le ch k e' hl
              rw [idsE_node]
              exact List.mem_cons_of_mem _
                (Multiset.mem_coe.mp
                  (Multiset.mem_of_le hle (Multiset.mem_coe.mpr hmem)))

/-- **Injectivity of resolution in an id-distinct tree**: two traversals
reaching nodes along different key lists reach nodes of different
identities. -/
theorem distinct_ids {V : Type} (cs₁ : List String) (e : Entry V)
    (cs₂ : List String) (i₁ i₂ : Nat)
    (ch₁ ch₂ : List (String × Entry V))
    (hnd : (idsE e : Multiset Nat).Nodup)
    (hr₁ : goEntry e cs₁ = .ok (.node i₁ ch₁))
    (hr₂ : goEntry e cs₂ = .ok (.node i₂ ch₂))
    (hne : cs₁ ≠ cs₂) : i₁ ≠ i₂ := by
  induction cs₁ generalizing e cs₂ with
  | nil =>
      simp only [goEntry] at hr₁
      cases hr₁
      cases cs₂ with
      | nil => exact absurd rfl hne
      | cons k ks =>
          simp only [goEntry] at hr₂
          cases hl : alookup ch₁ k with
          | none => rw [hl] at hr₂; simp at hr₂
          | some e' =>
              rw [hl] at hr₂
              have hmem : i₂ ∈ idsE e' := goEntry_id_mem ks e' i₂ ch₂ hr₂
              have hle := alookup_ids_le ch₁ k e' hl
              rw [idsE_node] at hnd
              have : i₁ ∉ (idsL ch₁ : Multiset Nat) := by
                have := Multiset.nodup_cons.mp (by
                  rwa [Multiset.cons_coe] )
                exact this.1
              intro hcontra
              apply this
              exact hcontra ▸ Multiset.mem_of_le hle (Multiset.mem_coe.mpr hmem)
  | cons k₁ ks₁ ih =>
      cases e with
      | val v => simp [goEntry] at hr₁
      | node i ch =>
          simp only [goEntry] at hr₁
          cases hl₁ : alookup ch k₁ with
          | none => rw [hl₁] at hr₁; simp at hr₁
          | some e₁ =>
              rw [hl₁] at hr₁
              cases cs₂ with
              | nil =>
                  simp only [goEntry] at hr₂
                  cases hr₂
                  have hmem : i₁ ∈ idsE e₁ := goEntry_id_mem ks₁ e₁ i₁ ch₁ hr₁
                  have hle := alookup_ids_le ch₂ k₁ e₁ hl₁
                  rw [idsE_node] at hnd
                  have hni : i₂ ∉ (idsL ch₂ : Multiset Nat) := by
                    have := Multiset.nodup_cons.mp (by rwa [Multiset.cons_coe])
                    exact this.1
                  intro hcontra
                  apply hni
                  exact hcontra ▸
                    Multiset.mem_of_le hle (Multiset.mem_coe.mpr hmem)
              | cons k₂ ks₂ =>
                  simp only [goEntry] at hr₂
                  cases hl₂ : alookup ch k₂ with
                  | none => rw [hl₂] at hr₂; simp at hr₂
                  | some e₂ =>
                      rw [hl₂] at hr₂
                      have hndch : (idsL ch : Multiset Nat).Nodup := by
                        rw [idsE_node] at hnd
                        have := Multiset.nodup_cons.mp (by
                          rwa [Multiset.cons_coe])
                        exact this.2
                      by_cases hk : k₁ = k₂
                      · subst hk
                        rw [hl₁] at hl₂
                        cases hl₂
                        have hks : ks₁ ≠ ks₂ := fun hh => hne (hh ▸ rfl)
                        exact ih e₁ ks₂
                          (Multiset.nodup_of_le (alookup_ids_le ch k₁ e₁ hl₁)
                            hndch)
                          hr₁ hr₂ hks
                      · have hpair := alookup_pair_ids_le ch hk hl₁ hl₂
                        have hdisj :=
                          (Multiset.nodup_add.mp
                            (Multiset.nodup_of_le hpair hndch)).2.2
                        have hm₁ : i₁ ∈ idsE e₁ :=
                          goEntry_id_mem ks₁ e₁ i₁ ch₁ hr₁
                        have hm₂ : i₂ ∈ idsE e₂ :=
                          goEntry_id_mem ks₂ e₂ i₂ ch₂ hr₂
                        intro hcontra
                        exact Multiset.disjoint_left.mp hdisj
                          (Multiset.mem_coe.mpr hm₁)
                          (Multiset.mem_coe.mpr (hcontra ▸ hm₂))

theorem idsL_ainsert_none {V : Type} (ch : List (String × Entry V))
    (k : String) (e : Entry V) (h : alookup ch k = none) :
    idsL (ainsert ch k e) = idsL ch ++ idsE e := by
  induction ch with
  | nil => simp [ainsert, idsL_cons, idsL_nil]
  | cons p t ih =>
      obtain ⟨k', e'⟩ := p
      by_cases hk : k' = k
      · simp [alookup, hk] at h
      · simp only [alookup, hk, if_false] at h
        simp only [ainsert, hk, if_false, idsL_cons, ih h, List.append_assoc]

theorem idsL_ainsert_some {V : Type} (ch : List (String × Entry V))
    (k : String) (e e₀ : Entry V) (h : alookup ch k = some e₀) :
    (idsL (ainsert ch k e) : Multiset Nat) + (idsE e₀ : Multiset Nat) =
      (idsL ch : Multiset Nat) + (idsE e : Multiset Nat) := by
  induction ch with
  | nil => simp [alookup] at h
  | cons p t ih =>
      obtain ⟨k', e'⟩ := p
      by_cases hk : k' = k
      · simp only [alookup, hk, if_true] at h
        cases h
        simp only [ainsert, hk, if_true, idsL_cons, ← Multiset.coe_add]
        abel
      · simp only [alookup, hk, if_false] at h
        simp only [ainsert, hk, if_false, idsL_cons, ← Multiset.coe_add]
        rw [add_assoc, ih h, add_assoc]

theorem idsL_ainsert_le {V : Type} (ch : List (String × Entry V))
    (k : String) (e : Entry V) :
    (idsL (ainsert ch k e) : Multiset Nat) ≤
      (idsL ch : Multiset Nat) + (idsE e : Multiset Nat) := by
  cases h : alookup ch k with
  | none => rw [idsL_ainsert_none ch k e h, ← Multiset.coe_add]
  | some e₀ =>
      exact Multiset.le_iff_exists_add.mpr
        ⟨idsE e₀, (idsL_ainsert_some ch k e e₀ h).symm⟩

theorem idsL_aerase_some {V : Type} (ch : List (String × Entry V))
    (k : String) (e₀ : Entry V) (h : alookup ch k = some e₀) :
    (idsL (aerase ch k) : Multiset Nat) + (idsE e₀ : Multiset Nat) =
      (idsL ch : Multiset Nat) := by
  induction ch with
  | nil => simp [alookup] at h
  | cons p t ih =>
      obtain ⟨k', e'⟩ := p
      by_cases hk : k' = k
      · simp only [alookup, hk, if_true] at h
        cases h
        simp only [aerase, hk, if_true, idsL_cons, ← Multiset.coe_add]
        abel
      · simp only [alookup, hk, if_false] at h
        simp only [aerase, hk, if_false, idsL_cons, ← Multiset.coe_add]
        rw [add_assoc, ih h]

/-- Master lemma: a successful `modifyL` whose dict mutation adds at most
the ids `extra` adds at most `extra` to the tree's ids. -/
theorem idsL_modifyL {V α : Type} (cs : List String)
    (ch ch' : List (String × Entry V))
    (f : List (String × Entry V) → Except DBErr (List (String × Entry V) × α))
    (a : α) (extra : Multiset Nat)
    (hf : ∀ c c' a', f c = .ok (c', a') →
      (idsL c' : Multiset Nat) ≤ (idsL c : Multiset Nat) + extra)
    (h : modifyL ch cs f = .ok (ch', a)) :
    (idsL ch' : Multiset Nat) ≤ (idsL ch : Multiset Nat) + extra := by
  induction cs generalizing ch ch' a with
  | nil => exact hf ch ch' a h
  | cons k ks ih =>
      simp only [modifyL] at h
      cases hl : alookup ch k with
      | none => rw [hl] at h; simp at h
      | some e₀ =>
          rw [hl] at h
          cases e₀ with
          | val v => simp at h
          | node i ch₁ =>
              simp only [] at h
              cases hm : modifyL ch₁ ks f with
              | error er => rw [hm] at h; simp at h
              | ok r =>
                  obtain ⟨ch₂, a'⟩ := r
                  rw [hm] at h
                  simp only [Except.ok.injEq, Prod.mk.injEq] at h
                  obtain ⟨hch, _⟩ := h
                  subst hch
                  have hrec := ih ch₁ ch₂ a' hm
                  have heq := idsL_ainsert_some ch k
                    (Entry.node i ch₂) (Entry.node i ch₁) hl
                  have hle2 : (idsE (Entry.node i ch₂) : Multiset Nat) ≤
                      (idsE (Entry.node i ch₁) : Multiset Nat) + extra := by
                    rw [idsE_node, idsE_node, ← Multiset.cons_coe,
                      ← Multiset.cons_coe]
                    rw [show (i ::ₘ (idsL ch₁ : Multiset Nat)) + extra =
                      i ::ₘ ((idsL ch₁ : Multiset Nat) + extra) from
                      Multiset.cons_add _ _ _]
                    exact Multiset.cons_le_cons i hrec
                  have : (idsL (ainsert ch k (Entry.node i ch₂)) : Multiset Nat)
                      + (idsE (Entry.node i ch₁) : Multiset Nat) ≤
                      ((idsL ch : Multiset Nat) +
                        (idsE (Entry.node i ch₁) : Multiset Nat)) + extra := by
                    rw [heq]
                    calc (idsL ch : Multiset Nat) +
                        (idsE (Entry.node i ch₂) : Multiset Nat)
                        ≤ (idsL ch : Multiset Nat) +
                          ((idsE (Entry.node i ch₁) : Multiset Nat) + extra) :=
                          add_le_add_left hle2 _
                      _ = ((idsL ch : Multiset Nat) +
                          (idsE (Entry.node i ch₁) : Multiset Nat)) + extra :=
                          (add_assoc _ _ _).symm
                  have := le_of_add_le_add_right (by
                    calc (idsL (ainsert ch k (Entry.node i ch₂)) : Multiset Nat)
                        + (idsE (Entry.node i ch₁) : Multiset Nat)
                        ≤ _ := this
                      _ = ((idsL ch : Multiset Nat) + extra) +
                          (idsE (Entry.node i ch₁) : Multiset Nat) := by abel)
                  exact this

/-- Invariant of reachable database states: all node identities (with the
root's `0`) are pairwise distinct, and every identity is below the
allocation counter, which is positive. -/
def Inv {V : Type} (db : TaskDatabase V) : Prop :=
  (0 ::ₘ (idsL db.database : Multiset Nat)).Nodup ∧
  (∀ i ∈ idsL db.database, i < db.nextId) ∧ 0 < db.nextId

theorem modifyDB_to_modifyL {V α : Type} (db : TaskDatabase V) (path : String)
    (f : List (String × Entry V) → Except DBErr (List (String × Entry V) × α))
    (r : List (String × Entry V) × α) (h : modifyDB db path f = .ok r) :
    ∃ cs, modifyL db.database cs f = .ok r := by
  unfold modifyDB at h
  by_cases hr : path = "root"
  · rw [if_pos hr] at h
    exact ⟨[], h⟩
  · rw [if_neg hr] at h
    exact ⟨tailKeys path, h⟩

theorem inv_update_zero {V : Type} (db : TaskDatabase V)
    (ch' : List (String × Entry V))
    (hle : (idsL ch' : Multiset Nat) ≤ (idsL db.database : Multiset Nat))
    (hInv : Inv db) : Inv { db with database := ch' } := by
  obtain ⟨hnd, hbound, hpos⟩ := hInv
  refine ⟨?_, ?_, hpos⟩
  · exact Multiset.nodup_of_le (Multiset.cons_le_cons 0 hle) hnd
  · intro i hi
    exact hbound i (Multiset.mem_coe.mp
      (Multiset.mem_of_le hle (Multiset.mem_coe.mpr hi)))

theorem inv_update_fresh {V : Type} (db : TaskDatabase V)
    (ch' : List (String × Entry V))
    (hle : (idsL ch' : Multiset Nat) ≤
      (idsL db.database : Multiset Nat) + {db.nextId})
    (hInv : Inv db) : Inv ⟨ch', db.nextId + 1⟩ := by
  obtain ⟨hnd, hbound, hpos⟩ := hInv
  have hfresh : db.nextId ∉ (0 ::ₘ (idsL db.database : Multiset Nat)) := by
    intro hmem
    rcases Multiset.mem_cons.mp hmem with h0 | hm
    · omega
    · exact absurd (hbound _ (Multiset.mem_coe.mp hm)) (by omega)
  have hndbig : ((0 ::ₘ (idsL db.database : Multiset Nat)) +
      {db.nextId}).Nodup := by
    rw [Multiset.nodup_add]
    refine ⟨hnd, Multiset.nodup_singleton _, ?_⟩
    rw [disjoint_comm, Multiset.singleton_disjoint]
    exact hfresh
  refine ⟨?_, ?_, Nat.succ_pos _⟩
  · apply Multiset.nodup_of_le _ hndbig
    calc (0 ::ₘ (idsL ch' : Multiset Nat))
        ≤ 0 ::ₘ ((idsL db.database : Multiset Nat) + {db.nextId}) :=
          Multiset.cons_le_cons 0 hle
      _ = (0 ::ₘ (idsL db.database : Multiset Nat)) + {db.nextId} :=
          (Multiset.cons_add _ _ _).symm
  · intro i hi
    have := Multiset.mem_of_le hle (Multiset.mem_coe.mpr hi)
    show i < db.nextId + 1
    rcases Multiset.mem_add.mp this with hm | hm
    · have := hbound i (Multiset.mem_coe.mp hm)
      omega
    · rw [Multiset.mem_singleton] at hm
      omega

theorem coe_nil_ids : (([] : List Nat) : Multiset Nat) = 0 := rfl

theorem inv_set_value {V : Type} {db db' : TaskDatabase V} {p n : String}
    {v : V} {b : Bool} (hInv : Inv db)
    (h : set_value db p n v = .ok (db', b)) : Inv db' := by
  unfold set_value at h
  cases hm : modifyDB db p (fun ch =>
      .ok (ainsert ch ("_" ++ n) (.val v), (alookup ch ("_" ++ n)).isNone)) with
  | error e => rw [hm] at h; simp at h
  | ok r =>
      obtain ⟨ch', bb⟩ := r
      rw [hm] at h
      simp only [Except.ok.injEq, Prod.mk.injEq] at h
      obtain ⟨hdb, _⟩ := h
      subst hdb
      obtain ⟨cs, hml⟩ := modifyDB_to_modifyL db p _ _ hm
      have hle := idsL_modifyL cs db.database ch' _ bb 0
        (by
          intro c c' a' hf
          simp only [Except.ok.injEq, Prod.mk.injEq] at hf
          obtain ⟨hc, _⟩ := hf
          subst hc
          have := idsL_ainsert_le c ("_" ++ n) (.val v)
          rwa [idsE_val, coe_nil_ids] at this) hml
      rw [add_zero] at hle
      exact inv_update_zero db ch' hle hInv

theorem inv_delete_value {V : Type} {db db' : TaskDatabase V} {p n : String}
    (hInv : Inv db) (h : delete_value db p n = .ok db') : Inv db' := by
  unfold delete_value at h
  cases hm : modifyDB db p (fun ch =>
      if (alookup ch ("_" ++ n)).isSome then .ok (aerase ch ("_" ++ n), ())
      else .error .valueError) with
  | error e => rw [hm] at h; simp at h
  | ok r =>
      obtain ⟨ch', u⟩ := r
      rw [hm] at h
      simp only [Except.ok.injEq] at h
      subst h
      obtain ⟨cs, hml⟩ := modifyDB_to_modifyL db p _ _ hm
      have hle := idsL_modifyL cs db.database ch' _ u 0
        (by
          intro c c' a' hf
          by_cases hs : (alookup c ("_" ++ n)).isSome
          · rw [if_pos hs] at hf
            simp only [Except.ok.injEq, Prod.mk.injEq] at hf
            obtain ⟨hc, _⟩ := hf
            subst hc
            obtain ⟨e₀, he₀⟩ := Option.isSome_iff_exists.mp hs
            rw [add_zero]
            exact Multiset.le_iff_exists_add.mpr
              ⟨idsE e₀, (idsL_aerase_some c ("_" ++ n) e₀ he₀).symm⟩
          · rw [if_neg hs] at hf
            simp at hf) hml
      rw [add_zero] at hle
      exact inv_update_zero db ch' hle hInv

theorem inv_delete_node {V : Type} {db db' : TaskDatabase V} {p n : String}
    (hInv : Inv db) (h : delete_node db p n = .ok db') : Inv db' := by
  unfold delete_node at h
  cases hm : modifyDB db p (fun ch =>
      if (alookup ch n).isSome then .ok (aerase ch n, ())
      else .error .valueError) with
  | error e => rw [hm] at h; simp at h
  | ok r =>
      obtain ⟨ch', u⟩ := r
      rw [hm] at h
      simp only [Except.ok.injEq] at h
      subst h
      obtain ⟨cs, hml⟩ := modifyDB_to_modifyL db p _ _ hm
      have hle := idsL_modifyL cs db.database ch' _ u 0
        (by
          intro c c' a' hf
          by_cases hs : (alookup c n).isSome
          · rw [if_pos hs] at hf
            simp only [Except.ok.injEq, Prod.mk.injEq] at hf
            obtain ⟨hc, _⟩ := hf
            subst hc
            obtain ⟨e₀, he₀⟩ := Option.isSome_iff_exists.mp hs
            rw [add_zero]
            exact Multiset.le_iff_exists_add.mpr
              ⟨idsE e₀, (idsL_aerase_some c n e₀ he₀).symm⟩
          · rw [if_neg hs] at hf
            simp at hf) hml
      rw [add_zero] at hle
      exact inv_update_zero db ch' hle hInv

theorem inv_rename_node {V : Type} {db db' : TaskDatabase V}
    {p newn oldn : String} (hInv : Inv db)
    (h : rename_node db p newn oldn = .ok db') : Inv db' := by
  unfold rename_node at h
  cases hm : modifyDB db p (fun ch =>
      match alookup ch oldn with
      | none => .error .keyError
      | some e => .ok (aerase (ainsert ch newn e) oldn, ())) with
  | error e => rw [hm] at h; simp at h
  | ok r =>
      obtain ⟨ch', u⟩ := r
      rw [hm] at h
      simp only [Except.ok.injEq] at h
      subst h
      obtain ⟨cs, hml⟩ := modifyDB_to_modifyL db p _ _ hm
      have hle := idsL_modifyL cs db.database ch' _ u 0
        (by
          intro c c' a' hf
          cases he : alookup c oldn with
          | none => rw [he] at hf; simp at hf
          | some e =>
              rw [he] at hf
              simp only [Except.ok.injEq, Prod.mk.injEq] at hf
              obtain ⟨hc, _⟩ := hf
              subst hc
              have h1 : alookup (ainsert c newn e) oldn = some e := by
                by_cases hno : newn = oldn
                · subst hno; exact alookup_ainsert_self c newn e
                · rw [alookup_ainsert_ne c e (fun hh => hno hh.symm)]
                  exact he
              have h2 := idsL_aerase_some (ainsert c newn e) oldn e h1
              have h3 := idsL_ainsert_le c newn e
              rw [add_zero]
              have h4 : (idsL (aerase (ainsert c newn e) oldn) : Multiset Nat) +
                  (idsE e : Multiset Nat) ≤ (idsL c : Multiset Nat) +
                  (idsE e : Multiset Nat) := by rw [h2]; exact h3
              exact le_of_add_le_add_right h4) hml
      rw [add_zero] at hle
      exact inv_update_zero db ch' hle hInv

theorem inv_create_node {V : Type} {db db' : TaskDatabase V} {p n : String}
    (hInv : Inv db) (h : create_node db p n = .ok db') : Inv db' := by
  unfold create_node at h
  cases hm : modifyDB db p (fun ch =>
      .ok (ainsert ch n (.node db.nextId []), ())) with
  | error e => rw [hm] at h; simp at h
  | ok r =>
      obtain ⟨ch', u⟩ := r
      rw [hm] at h
      simp only [Except.ok.injEq] at h
      subst h
      obtain ⟨cs, hml⟩ := modifyDB_to_modifyL db p _ _ hm
      have hle := idsL_modifyL cs db.database ch' _ u {db.nextId}
        (by
          intro c c' a' hf
          simp only [Except.ok.injEq, Prod.mk.injEq] at hf
          obtain ⟨hc, _⟩ := hf
          subst hc
          have := idsL_ainsert_le c n (.node db.nextId [])
          rwa [idsE_node, idsL_nil,
            show ((([db.nextId] : List Nat)) : Multiset Nat) =
              {db.nextId} from Multiset.coe_singleton _] at this) hml
      exact inv_update_fresh db ch' hle hInv

/-- The states reachable from a freshly constructed database by successful
`create_node` / `rename_node` / `delete_node` / `set_value` /
`delete_value` calls (a call that raises leaves the Python state
unchanged, since every method performs its checks before mutating). -/
inductive Reachable {V : Type} : TaskDatabase V → Prop where
  | init : Reachable (initDB V)
  | step_set {db db' : TaskDatabase V} {p n : String} {v : V} {b : Bool} :
      Reachable db → set_value db p n v = .ok (db', b) → Reachable db'
  | step_delete_value {db db' : TaskDatabase V} {p n : String} :
      Reachable db → delete_value db p n = .ok db' → Reachable db'
  | step_create {db db' : TaskDatabase V} {p n : String} :
      Reachable db → create_node db p n = .ok db' → Reachable db'
  | step_rename {db db' : TaskDatabase V} {p newn oldn : String} :
      Reachable db → rename_node db p newn oldn = .ok db' → Reachable db'
  | step_delete_node {db db' : TaskDatabase V} {p n : String} :
      Reachable db → delete_node db p n = .ok db' → Reachable db'

theorem reachable_inv {V : Type} {db : TaskDatabase V}
    (h : Reachable db) : Inv db := by
  induction h with
  | init =>
      refine ⟨?_, ?_, Nat.one_pos⟩
      · rw [show initDB V = ⟨[], 1⟩ from rfl]
        simp [idsL_nil, coe_nil_ids]
      · intro i hi
        rw [show (initDB V).database = [] from rfl, idsL_nil] at hi
        simp at hi
  | step_set _ hstep ih => exact inv_set_value ih hstep
  | step_delete_value _ hstep ih => exact inv_delete_value ih hstep
  | step_create _ hstep ih => exact inv_create_node ih hstep
  | step_rename _ hstep ih => exact inv_rename_node ih hstep
  | step_delete_node _ hstep ih => exact inv_delete_node ih hstep

/-- **C2 (amended).** In every reachable state, `_go_to_path` — a total
function of the state and the path, so each path resolves to at most one
node — sends distinct canonical paths (`'root'` followed by
`'/'`-separated components) that resolve to nodes to *distinct* nodes:
their identity tags differ. -/
theorem goToPath_canonical_injective {V : Type} (db : TaskDatabase V)
    (hreach : Reachable db) (cs₁ cs₂ : List String)
    (h₁ : NoSlash cs₁) (h₂ : NoSlash cs₂)
    (i₁ i₂ : Nat) (ch₁ ch₂ : List (String × Entry V))
    (hr₁ : goToPath db (mkPath cs₁) = .ok (.node i₁ ch₁))
    (hr₂ : goToPath db (mkPath cs₂) = .ok (.node i₂ ch₂))
    (hne : mkPath cs₁ ≠ mkPath cs₂) : i₁ ≠ i₂ := by
  have hInv := reachable_inv hreach
  have hnd : (idsE (Entry.node 0 db.database) : Multiset Nat).Nodup := by
    rw [idsE_node, ← Multiset.cons_coe]
    exact hInv.1
  rw [goToPath_mkPath db cs₁ h₁] at hr₁
  rw [goToPath_mkPath db cs₂ h₂] at hr₂
  exact distinct_ids cs₁ _ cs₂ i₁ i₂ ch₁ ch₂ hnd hr₁ hr₂
    (fun hc => hne (hc ▸ rfl))

/-- **C2 counterexample (claim as stated).** In the reachable initial
state, the two distinct paths `''` and `'root'` both resolve (without
raising) to the very same node, the root: `_go_to_path` drops the first
`'/'`-component of any non-`'root'` path unconditionally, so a path with
no separator resolves to the root. -/
theorem goToPath_distinct_paths_same_node :
    Reachable (initDB Int) ∧ ("" : String) ≠ "root" ∧
    goToPath (initDB Int) "" = .ok (.node 0 []) ∧
    goToPath (initDB Int) "root" = .ok (.node 0 []) :=
  ⟨Reachable.init, by decide, rfl, rfl⟩

/-- A one-`create_node` state used as concrete input below:
`create_node(initial, 'root', 'a')`. -/
def wdb1 : TaskDatabase Int := ⟨[("a", .node 1 [])], 2⟩

theorem wdb1_reachable : Reachable wdb1 :=
  Reachable.step_create Reachable.init
    (show create_node (initDB Int) "root" "a" = .ok wdb1 from rfl)

theorem goToPath_canonical_injective_witness : (1 : Nat) ≠ (0 : Nat) :=
  goToPath_canonical_injective wdb1 wdb1_reachable ["a"] []
    (by decide) (by decide) 1 0 [] [("a", .node 1 [])] rfl rfl (by decide)

/-- **C3 (amended).** Only `'/'` separates path components: a path string
containing no `'/'` (in particular a dotted path such as `'root.a'`) is
treated as a single component, which `_go_to_path` discards, so it
resolves to the *root* node — not to the node reached by the
corresponding slashed path. -/
theorem goToPath_no_slash {V : Type} (db : TaskDatabase V) (p : String)
    (h : '/' ∉ p.data) : goToPath db p = .ok (.node 0 db.database) := by
  unfold goToPath
  by_cases hr : p = "root"
  · rw [if_pos hr]
  · rw [if_neg hr]
    unfold tailKeys pathSplit
    rw [splitSlash_no_slash p.data h]
    rfl

/-- **C3 counterexample (claim as stated).** In the reachable state with
one child node `a`, the dotted path `'root.a'` resolves to the root while
the slashed path `'root/a'` resolves to the child: dotted and slashed
paths are not interchangeable. -/
theorem dotted_path_not_interchangeable :
    Reachable wdb1 ∧
    goToPath wdb1 "root.a" = .ok (.node 0 [("a", .node 1 [])]) ∧
    goToPath wdb1 "root/a" = .ok (.node 1 []) ∧
    (0 : Nat) ≠ (1 : Nat) :=
  ⟨wdb1_reachable, rfl, rfl, by decide⟩

theorem goToPath_no_slash_witness :
    goToPath wdb1 "root.a" = .ok (.node 0 [("a", .node 1 [])]) :=
  goToPath_no_slash wdb1 "root.a" (by decide)

/-! ## Frame properties of the mutating operations (claims C5, C8, C9) -/

/-- Value observation: the value stored under key `k` of the node reached
by `cs` (``none`` when the path does not resolve to a node or the key does
not hold a plain value). -/
def valAtE {V : Type} (e : Entry V) (cs : List String) (k : String) :
    Option V :=
  match goEntry e cs with
  | .ok (.node _ ch) =>
      match alookup ch k with
      | some (.val v) => some v
      | _ => none
  | _ => none

/-- Node observation: the identity of the node reached by `cs`
(``none`` when the path does not resolve to a node). -/
def nodeIdAtE {V : Type} (e : Entry V) (cs : List String) : Option Nat :=
  match goEntry e cs with
  | .ok (.node i _) => some i
  | _ => none

def valAt {V : Type} (db : TaskDatabase V) (cs : List String) (k : String) :
    Option V := valAtE (.node 0 db.database) cs k

def nodeIdAt {V : Type} (db : TaskDatabase V) (cs : List String) :
    Option Nat := nodeIdAtE (.node 0 db.database) cs

/-- Anatomy of a successful `modifyL`: the path resolved to a node, `f`
succeeded on its dict, and the result tree is the original with that dict
replaced. -/
theorem modifyL_ok {V α : Type} (cs : List String)
    (ch ch' : List (String × Entry V)) (a : α)
    (f : List (String × Entry V) → Except DBErr (List (String × Entry V) × α))
    (j : Nat) (h : modifyL ch cs f = .ok (ch', a)) :
    ∃ i chT chT', goEntry (.node j ch) cs = .ok (.node i chT) ∧
      f chT = .ok (chT', a) ∧ ch' = replaceL ch cs chT' := by
  induction cs generalizing ch ch' a j with
  | nil =>
      exact ⟨j, ch, ch', by rw [goEntry], h, rfl⟩
  | cons c cs₁ ih =>
      simp only [modifyL] at h
      cases hl : alookup ch c with
      | none => rw [hl] at h; simp at h
      | some e₀ =>
          rw [hl] at h
          cases e₀ with
          | val v => simp at h
          | node j₁ ch₁ =>
              simp only [] at h
              cases hm : modifyL ch₁ cs₁ f with
              | error er => rw [hm] at h; simp at h
              | ok r =>
                  obtain ⟨ch₂, a'⟩ := r
                  rw [hm] at h
                  simp only [Except.ok.injEq, Prod.mk.injEq] at h
                  obtain ⟨hch, ha⟩ := h
                  subst ha
                  obtain ⟨i, chT, chT', hres, hf, hrepl⟩ := ih ch₁ ch₂ a' j₁ hm
                  refine ⟨i, chT, chT', ?_, hf, ?_⟩
                  · simp only [goEntry, hl]
                    exact hres
                  · rw [← hch, hrepl]
                    simp only [replaceL, hl]

/-- After replacement, the modified path resolves to the new dict. -/
theorem goEntry_replaceL_self {V : Type} (cs : List String) (j i : Nat)
    (ch chT newCh : List (String × Entry V))
    (hres : goEntry (.node j ch) cs = .ok (.node i chT)) :
    goEntry (.node j (replaceL ch cs newCh)) cs = .ok (.node i newCh) := by
  induction cs generalizing ch j with
  | nil =>
      simp only [goEntry] at hres ⊢
      cases hres
      rfl
  | cons c cs₁ ih =>
      simp only [goEntry] at hres
      cases hl : alookup ch c with
      | none => rw [hl] at hres; simp at hres
      | some e₀ =>
          rw [hl] at hres
          cases e₀ with
          | val v =>
              exfalso
              cases cs₁ <;> simp [goEntry] at hres
          | node j₁ ch₁ =>
              simp only [replaceL, hl, goEntry,
                alookup_ainsert_self]
              exact ih j₁ ch₁ hres

/-- Frame for values: after replacing the dict at `cs` by one that keeps
every key other than `key` bound to the same entry, every value
observation whose entry address does not pass through or name `key` at
`cs` is unchanged. -/
theorem valAtE_replaceL {V : Type} (cs : List String) (j i : Nat)
    (ch chT newCh : List (String × Entry V)) (key : String)
    (hres : goEntry (.node j ch) cs = .ok (.node i chT))
    (hkeep : ∀ q, q ≠ key → alookup newCh q = alookup chT q) :
    ∀ (cs' : List String) (k' : String),
      ¬ (cs ++ [key] <+: cs' ++ [k']) →
      valAtE (.node j (replaceL ch cs newCh)) cs' k' =
        valAtE (.node j ch) cs' k' := by
  induction cs generalizing ch j with
  | nil =>
      intro cs' k' hpre
      simp only [goEntry] at hres
      cases hres
      simp only [replaceL]
      cases cs' with
      | nil =>
          have hk : k' ≠ key := by
            intro hh
            exact hpre (by simp [hh])
          simp only [valAtE, goEntry, hkeep k' hk]
      | cons k₀ cs₀ =>
          have hk : k₀ ≠ key := by
            intro hh
            exact hpre (by simp [hh])
          simp only [valAtE, goEntry, hkeep k₀ hk]
  | cons c cs₁ ih =>
      intro cs' k' hpre
      simp only [goEntry] at hres
      cases hl : alookup ch c with
      | none => rw [hl] at hres; simp at hres
      | some e₀ =>
          rw [hl] at hres
          cases e₀ with
          | val v =>
              exfalso
              cases cs₁ <;> simp [goEntry] at hres
          | node j₁ ch₁ =>
              simp only [replaceL, hl]
              cases cs' with
              | nil =>
                  by_cases hk : k' = c
                  · subst hk
                    simp only [valAtE, goEntry, alookup_ainsert_self, hl]
                  · simp only [valAtE, goEntry,
                      alookup_ainsert_ne ch _ hk]
              | cons k₀ cs₀ =>
                  by_cases hk : k₀ = c
                  · subst hk
                    have hpre' : ¬ (cs₁ ++ [key] <+: cs₀ ++ [k']) := by
                      intro hh
                      exact hpre (by
                        simp only [List.cons_append, List.cons_prefix_cons]
                        exact ⟨trivial, hh⟩)
                    have := ih j₁ ch₁ hres cs₀ k' hpre'
                    simp only [valAtE, goEntry, alookup_ainsert_self, hl] at this ⊢
                    exact this
                  · simp only [valAtE, goEntry,
                      alookup_ainsert_ne ch _ hk]

/-- Frame for nodes: any node observation whose path does not pass through
`key` at `cs` is unchanged (the replacement only rebinds `key` there). -/
theorem nodeIdAtE_replaceL {V : Type} (cs : List String) (j i : Nat)
    (ch chT newCh : List (String × Entry V)) (key : String)
    (hres : goEntry (.node j ch) cs = .ok (.node i chT))
    (hkeep : ∀ q, q ≠ key → alookup newCh q = alookup chT q) :
    ∀ cs' : List String, ¬ (cs ++ [key] <+: cs') →
      nodeIdAtE (.node j (replaceL ch cs newCh)) cs' =
        nodeIdAtE (.node j ch) cs' := by
  induction cs generalizing ch j with
  | nil =>
      intro cs' hpre
      simp only [goEntry] at hres
      cases hres
      simp only [replaceL]
      cases cs' with
      | nil => simp only [nodeIdAtE, goEntry]
      | cons k₀ cs₀ =>
          have hk : k₀ ≠ key := by
            intro hh
            exact hpre (by simp [hh])
          simp only [nodeIdAtE, goEntry, hkeep k₀ hk]
  | cons c cs₁ ih =>
      intro cs' hpre
      simp only [goEntry] at hres
      cases hl : alookup ch c with
      | none => rw [hl] at hres; simp at hres
      | some e₀ =>
          rw [hl] at hres
          cases e₀ with
          | val v =>
              exfalso
              cases cs₁ <;> simp [goEntry] at hres
          | node j₁ ch₁ =>
              simp only [replaceL, hl]
              cases cs' with
              | nil => simp only [nodeIdAtE, goEntry]
              | cons k₀ cs₀ =>
                  by_cases hk : k₀ = c
                  · subst hk
                    have hpre' : ¬ (cs₁ ++ [key] <+: cs₀) := by
                      intro hh
                      exact hpre (by
                        simp only [List.cons_append, List.cons_prefix_cons]
                        exact ⟨trivial, hh⟩)
                    have := ih j₁ ch₁ hres cs₀ hpre'
                    simp only [nodeIdAtE, goEntry, alookup_ainsert_self,
                      hl] at this ⊢
                    exact this
                  · simp only [nodeIdAtE, goEntry,
                      alookup_ainsert_ne ch _ hk]

/-- Below the rewritten entry there is no node, provided the new binding of
`key` is not a node. -/
theorem nodeIdAtE_replaceL_under {V : Type} (cs : List String) (j i : Nat)
    (ch chT newCh : List (String × Entry V)) (key : String)
    (hres : goEntry (.node j ch) cs = .ok (.node i chT))
    (hval : ∀ e', alookup newCh key = some e' → ∃ v, e' = Entry.val v) :
    ∀ rest : List String,
      nodeIdAtE (.node j (replaceL ch cs newCh)) (cs ++ key :: rest) =
        none := by
  intro rest
  have hself := goEntry_replaceL_self cs j i ch chT newCh hres
  unfold nodeIdAtE
  rw [goEntry_append, hself]
  simp only [goEntry]
  cases hl : alookup newCh key with
  | none => rfl
  | some e' =>
      obtain ⟨v, hv⟩ := hval e' hl
      subst hv
      cases rest <;> simp [goEntry]

/-- With a resolved path, `modifyL` is exactly `f` on the target dict,
its result threaded back by `replaceL`. -/
theorem modifyL_resolved {V α : Type} (cs : List String)
    (ch : List (String × Entry V)) (j i : Nat)
    (chT : List (String × Entry V))
    (f : List (String × Entry V) → Except DBErr (List (String × Entry V) × α))
    (hres : goEntry (.node j ch) cs = .ok (.node i chT)) :
    modifyL ch cs f =
      match f chT with
      | .error e => .error e
      | .ok (chT', a) => .ok (replaceL ch cs chT', a) := by
  induction cs generalizing ch j with
  | nil =>
      simp only [goEntry] at hres
      cases hres
      show f chT = _
      cases hf : f chT with
      | error e => rfl
      | ok r => obtain ⟨chT', a⟩ := r; rfl
  | cons c cs₁ ih =>
      simp only [goEntry] at hres
      cases hl : alookup ch c with
      | none => rw [hl] at hres; simp at hres
      | some e₀ =>
          rw [hl] at hres
          cases e₀ with
          | val v =>
              exfalso
              cases cs₁ <;> simp [goEntry] at hres
          | node j₁ ch₁ =>
              have hres' : goEntry (Entry.node j₁ ch₁) cs₁ =
                  Except.ok (Entry.node i chT) := hres
              have hrec := ih ch₁ j₁ hres'
              simp only [modifyL, hl, replaceL]
              rw [hrec]
              cases hf : f chT with
              | error e => rfl
              | ok r => obtain ⟨chT', a⟩ := r; rfl

/-! ## Duplicate-free dicts

Python dicts cannot bind a key twice; `nodupL` states this for every dict
in a subtree, and it holds in every reachable state. -/

mutual
def nodupE {V : Type} : Entry V → Prop
  | .val _ => True
  | .node _ ch => nodupL ch

def nodupL {V : Type} : List (String × Entry V) → Prop
  | [] => True
  | (k, e) :: t => alookup t k = none ∧ nodupE e ∧ nodupL t
end

theorem nodupE_val {V : Type} (v : V) : nodupE (Entry.val v) := by
  rw [nodupE]; trivial

theorem nodupE_node {V : Type} (i : Nat) (ch : List (String × Entry V)) :
    nodupE (Entry.node i ch) = nodupL ch := by rw [nodupE]

theorem nodupL_nil {V : Type} : nodupL ([] : List (String × Entry V)) := by
  rw [nodupL]; trivial

theorem nodupL_cons {V : Type} (k : String) (e : Entry V)
    (t : List (String × Entry V)) :
    nodupL ((k, e) :: t) = (alookup t k = none ∧ nodupE e ∧ nodupL t) := by
  rw [nodupL]

theorem nodupL_alookup {V : Type} (ch : List (String × Entry V))
    (k : String) (e : Entry V) (hnd : nodupL ch)
    (h : alookup ch k = some e) : nodupE e := by
  induction ch with
  | nil => simp [alookup] at h
  | cons p t ih =>
      obtain ⟨k', e'⟩ := p
      rw [nodupL_cons] at hnd
      by_cases hk : k' = k
      · simp only [alookup, hk, if_true] at h
        cases h
        exact hnd.2.1
      · simp only [alookup, hk, if_false] at h
        exact ih hnd.2.2 h

theorem nodupL_keys {V : Type} (ch : List (String × Entry V))
    (hnd : nodupL ch) : (ch.map Prod.fst).Nodup := by
  induction ch with
  | nil => simp
  | cons p t ih =>
      obtain ⟨k', e'⟩ := p
      rw [nodupL_cons] at hnd
      simp only [List.map_cons, List.nodup_cons]
      refine ⟨?_, ih hnd.2.2⟩
      intro hmem
      have : ∃ e, alookup t k' = some e := by
        clear ih hnd
        induction t with
        | nil => simp at hmem
        | cons q s ihs =>
            obtain ⟨kq, eq'⟩ := q
            rcases List.mem_cons.mp hmem with h1 | h2
            · exact ⟨eq', by rw [show kq = k' from h1.symm]; simp [alookup]⟩
            · by_cases hq : kq = k'
              · exact ⟨eq', by simp [alookup, hq]⟩
              · obtain ⟨e, he⟩ := ihs h2
                exact ⟨e, by simp [alookup, hq, he]⟩
      obtain ⟨e, he⟩ := this
      rw [hnd.1] at he
      exact absurd he (by simp)

theorem nodupL_ainsert {V : Type} (ch : List (String × Entry V))
    (k : String) (e : Entry V) (hnd : nodupL ch) (he : nodupE e) :
    nodupL (ainsert ch k e) := by
  induction ch with
  | nil =>
      rw [show ainsert ([] : List (String × Entry V)) k e = [(k, e)] from rfl,
        nodupL_cons]
      exact ⟨rfl, he, nodupL_nil⟩
  | cons p t ih =>
      obtain ⟨k', e'⟩ := p
      rw [nodupL_cons] at hnd
      by_cases hk : k' = k
      · subst hk
        rw [show ainsert ((k', e') :: t) k' e = (k', e) :: t from by
          simp [ainsert], nodupL_cons]
        exact ⟨hnd.1, he, hnd.2.2⟩
      · rw [show ainsert ((k', e') :: t) k e = (k', e') :: ainsert t k e from by
          simp [ainsert, hk], nodupL_cons]
        refine ⟨?_, hnd.2.1, ih hnd.2.2⟩
        rw [alookup_ainsert_ne t e hk]
        exact hnd.1

theorem nodupL_aerase {V : Type} (ch : List (String × Entry V))
    (k : String) (hnd : nodupL ch) : nodupL (aerase ch k) := by
  induction ch with
  | nil => exact nodupL_nil
  | cons p t ih =>
      obtain ⟨k', e'⟩ := p
      rw [nodupL_cons] at hnd
      by_cases hk : k' = k
      · rw [show aerase ((k', e') :: t) k = t from by simp [aerase, hk]]
        exact hnd.2.2
      · rw [show aerase ((k', e') :: t) k = (k', e') :: aerase t k from by
          simp [aerase, hk], nodupL_cons]
        refine ⟨?_, hnd.2.1, ih hnd.2.2⟩
        rw [alookup_aerase_ne t hk]
        exact hnd.1

theorem nodupL_goEntry {V : Type} (cs : List String)
    (ch chT : List (String × Entry V)) (j i : Nat) (hnd : nodupL ch)
    (hres : goEntry (.node j ch) cs = .ok (.node i chT)) : nodupL chT := by
  induction cs generalizing ch j with
  | nil =>
      simp only [goEntry] at hres
      cases hres
      exact hnd
  | cons c cs₁ ih =>
      simp only [goEntry] at hres
      cases hl : alookup ch c with
      | none => rw [hl] at hres; simp at hres
      | some e₀ =>
          rw [hl] at hres
          cases e₀ with
          | val v =>
              exfalso
              cases cs₁ <;> simp [goEntry] at hres
          | node j₁ ch₁ =>
              have := nodupL_alookup ch c _ hnd hl
              rw [nodupE_node] at this
              exact ih ch₁ j₁ this hres

theorem nodupL_modifyL {V α : Type} (cs : List String)
    (ch ch' : List (String × Entry V)) (a : α)
    (f : List (String × Entry V) → Except DBErr (List (String × Entry V) × α))
    (hf : ∀ c, nodupL c → ∀ c' a', f c = .ok (c', a') → nodupL c')
    (hnd : nodupL ch) (h : modifyL ch cs f = .ok (ch', a)) : nodupL ch' := by
  induction cs generalizing ch ch' a with
  | nil => exact hf ch hnd ch' a h
  | cons c cs₁ ih =>
      simp only [modifyL] at h
      cases hl : alookup ch c with
      | none => rw [hl] at h; simp at h
      | some e₀ =>
          rw [hl] at h
          cases e₀ with
          | val v => simp at h
          | node j₁ ch₁ =>
              simp only [] at h
              cases hm : modifyL ch₁ cs₁ f with
              | error er => rw [hm] at h; simp at h
              | ok r =>
                  obtain ⟨ch₂, a'⟩ := r
                  rw [hm] at h
                  simp only [Except.ok.injEq, Prod.mk.injEq] at h
                  obtain ⟨hch, _⟩ := h
                  subst hch
                  have hch₁ : nodupL ch₁ := by
                    have := nodupL_alookup ch c _ hnd hl
                    rwa [nodupE_node] at this
                  exact nodupL_ainsert ch c _ hnd
                    (by rw [nodupE_node]; exact ih ch₁ ch₂ a' hch₁ hm)

theorem nodup_set_value {V : Type} {db db' : TaskDatabase V} {p n : String}
    {v : V} {b : Bool} (hnd : nodupL db.database)
    (h : set_value db p n v = .ok (db', b)) : nodupL db'.database := by
  unfold set_value at h
  cases hm : modifyDB db p (fun ch =>
      .ok (ainsert ch ("_" ++ n) (.val v), (alookup ch ("_" ++ n)).isNone)) with
  | error e => rw [hm] at h; simp at h
  | ok r =>
      obtain ⟨ch', bb⟩ := r
      rw [hm] at h
      simp only [Except.ok.injEq, Prod.mk.injEq] at h
      obtain ⟨hdb, _⟩ := h
      subst hdb
      obtain ⟨cs, hml⟩ := modifyDB_to_modifyL db p _ _ hm
      exact nodupL_modifyL cs db.database ch' bb _
        (by
          intro c hc c' a' hf
          simp only [Except.ok.injEq, Prod.mk.injEq] at hf
          obtain ⟨hcc, _⟩ := hf
          subst hcc
          exact nodupL_ainsert c _ _ hc (nodupE_val v)) hnd hml

theorem nodup_delete_value {V : Type} {db db' : TaskDatabase V}
    {p n : String} (hnd : nodupL db.database)
    (h : delete_value db p n = .ok db') : nodupL db'.database := by
  unfold delete_value at h
  cases hm : modifyDB db p (fun ch =>
      if (alookup ch ("_" ++ n)).isSome then .ok (aerase ch ("_" ++ n), ())
      else .error .valueError) with
  | error e => rw [hm] at h; simp at h
  | ok r =>
      obtain ⟨ch', u⟩ := r
      rw [hm] at h
      simp only [Except.ok.injEq] at h
      subst h
      obtain ⟨cs, hml⟩ := modifyDB_to_modifyL db p _ _ hm
      exact nodupL_modifyL cs db.database ch' u _
        (by
          intro c hc c' a' hf
          by_cases hs : (alookup c ("_" ++ n)).isSome
          · rw [if_pos hs] at hf
            simp only [Except.ok.injEq, Prod.mk.injEq] at hf
            obtain ⟨hcc, _⟩ := hf
            subst hcc
            exact nodupL_aerase c _ hc
          · rw [if_neg hs] at hf; simp at hf) hnd hml

theorem nodup_delete_node {V : Type} {db db' : TaskDatabase V}
    {p n : String} (hnd : nodupL db.database)
    (h : delete_node db p n = .ok db') : nodupL db'.database := by
  unfold delete_node at h
  cases hm : modifyDB db p (fun ch =>
      if (alookup ch n).isSome then .ok (aerase ch n, ())
      else .error .valueError) with
  | error e => rw [hm] at h; simp at h
  | ok r =>
      obtain ⟨ch', u⟩ := r
      rw [hm] at h
      simp only [Except.ok.injEq] at h
      subst h
      obtain ⟨cs, hml⟩ := modifyDB_to_modifyL db p _ _ hm
      exact nodupL_modifyL cs db.database ch' u _
        (by
          intro c hc c' a' hf
          by_cases hs : (alookup c n).isSome
          · rw [if_pos hs] at hf
            simp only [Except.ok.injEq, Prod.mk.injEq] at hf
            obtain ⟨hcc, _⟩ := hf
            subst hcc
            exact nodupL_aerase c _ hc
          · rw [if_neg hs] at hf; simp at hf) hnd hml

theorem nodup_create_node {V : Type} {db db' : TaskDatabase V}
    {p n : String} (hnd : nodupL db.database)
    (h : create_node db p n = .ok db') : nodupL db'.database := by
  unfold create_node at h
  cases hm : modifyDB db p (fun ch =>
      .ok (ainsert ch n (.node db.nextId []), ())) with
  | error e => rw [hm] at h; simp at h
  | ok r =>
      obtain ⟨ch', u⟩ := r
      rw [hm] at h
      simp only [Except.ok.injEq] at h
      subst h
      obtain ⟨cs, hml⟩ := modifyDB_to_modifyL db p _ _ hm
      exact nodupL_modifyL cs db.database ch' u _
        (by
          intro c hc c' a' hf
          simp only [Except.ok.injEq, Prod.mk.injEq] at hf
          obtain ⟨hcc, _⟩ := hf
          subst hcc
          exact nodupL_ainsert c _ _ hc
            (by rw [nodupE_node]; exact nodupL_nil)) hnd hml

theorem nodup_rename_node {V : Type} {db db' : TaskDatabase V}
    {p newn oldn : String} (hnd : nodupL db.database)
    (h : rename_node db p newn oldn = .ok db') : nodupL db'.database := by
  unfold rename_node at h
  cases hm : modifyDB db p (fun ch =>
      match alookup ch oldn with
      | none => .error .keyError
      | some e => .ok (aerase (ainsert ch newn e) oldn, ())) with
  | error e => rw [hm] at h; simp at h
  | ok r =>
      obtain ⟨ch', u⟩ := r
      rw [hm] at h
      simp only [Except.ok.injEq] at h
      subst h
      obtain ⟨cs, hml⟩ := modifyDB_to_modifyL db p _ _ hm
      exact nodupL_modifyL cs db.database ch' u _
        (by
          intro c hc c' a' hf
          cases he : alookup c oldn with
          | none => rw [he] at hf; simp at hf
          | some e =>
              rw [he] at hf
              simp only [Except.ok.injEq, Prod.mk.injEq] at hf
              obtain ⟨hcc, _⟩ := hf
              subst hcc
              exact nodupL_aerase _ _
                (nodupL_ainsert c _ _ hc (nodupL_alookup c oldn e hc he)))
        hnd hml

/-- Every reachable state has duplicate-free dicts throughout. -/
theorem reachable_nodupL {V : Type} {db : TaskDatabase V}
    (h : Reachable db) : nodupL db.database := by
  induction h with
  | init => exact nodupL_nil
  | step_set _ hstep ih => exact nodup_set_value ih hstep
  | step_delete_value _ hstep ih => exact nodup_delete_value ih hstep
  | step_create _ hstep ih => exact nodup_create_node ih hstep
  | step_rename _ hstep ih => exact nodup_rename_node ih hstep
  | step_delete_node _ hstep ih => exact nodup_delete_node ih hstep

/-- Anatomy of a successful `set_value` on a canonical path. -/
theorem set_value_ok {V : Type} (db db' : TaskDatabase V) (cs : List String)
    (n : String) (v : V) (b : Bool) (hns : NoSlash cs)
    (h : set_value db (mkPath cs) n v = .ok (db', b)) :
    ∃ i chT, goEntry (.node 0 db.database) cs = .ok (.node i chT) ∧
      b = (alookup chT ("_" ++ n)).isNone ∧
      db'.database =
        replaceL db.database cs (ainsert chT ("_" ++ n) (.val v)) ∧
      db'.nextId = db.nextId := by
  unfold set_value at h
  rw [modifyDB_mkPath db cs hns] at h
  cases hm : modifyL db.database cs (fun ch =>
      .ok (ainsert ch ("_" ++ n) (.val v), (alookup ch ("_" ++ n)).isNone)) with
  | error e => rw [hm] at h; simp at h
  | ok r =>
      obtain ⟨ch', bb⟩ := r
      rw [hm] at h
      simp only [Except.ok.injEq, Prod.mk.injEq] at h
      obtain ⟨hdb, hb⟩ := h
      obtain ⟨i, chT, chT', hres, hf, hrepl⟩ := modifyL_ok cs db.database
        ch' bb _ 0 hm
      simp only [Except.ok.injEq, Prod.mk.injEq] at hf
      obtain ⟨hchT', hbb⟩ := hf
      refine ⟨i, chT, hres, ?_, ?_, ?_⟩
      · rw [← hb, ← hbb]
      · rw [← hdb, hrepl, hchT']
      · rw [← hdb]

/-- **C5 (amended).** A successful `set_value(p, n, v)` changes at most
the single entry `'_' + n` of the node at `p`: every value observation
not at or below that entry is unchanged, every node not below that entry
is unchanged, and no node exists at or below that entry afterwards (in
particular no node is added; a node can disappear only if it was itself
stored under the key `'_' + n` of the node at `p`).  `get_value` returns
a value without returning a new state in this embedding, mirroring that
the Python method only reads the dicts. -/
theorem set_value_frame {V : Type} (db db' : TaskDatabase V)
    (cs : List String) (n : String) (v : V) (b : Bool) (hns : NoSlash cs)
    (h : set_value db (mkPath cs) n v = .ok (db', b)) :
    (∀ (cs' : List String) (k' : String),
        ¬ (cs ++ ["_" ++ n] <+: cs' ++ [k']) →
        valAt db' cs' k' = valAt db cs' k') ∧
    (∀ cs' : List String, ¬ (cs ++ ["_" ++ n] <+: cs') →
        nodeIdAt db' cs' = nodeIdAt db cs') ∧
    (∀ rest : List String,
        nodeIdAt db' (cs ++ ("_" ++ n) :: rest) = none) := by
  obtain ⟨i, chT, hres, _, hdb, _⟩ := set_value_ok db db' cs n v b hns h
  have hkeep : ∀ q, q ≠ ("_" ++ n) →
      alookup (ainsert chT ("_" ++ n) (.val v)) q = alookup chT q :=
    fun q hq => alookup_ainsert_ne chT _ hq
  refine ⟨?_, ?_, ?_⟩
  · intro cs' k' hpre
    unfold valAt
    rw [hdb]
    exact valAtE_replaceL cs 0 i db.database chT _ ("_" ++ n) hres hkeep
      cs' k' hpre
  · intro cs' hpre
    unfold nodeIdAt
    rw [hdb]
    exact nodeIdAtE_replaceL cs 0 i db.database chT _ ("_" ++ n) hres hkeep
      cs' hpre
  · intro rest
    unfold nodeIdAt
    rw [hdb]
    exact nodeIdAtE_replaceL_under cs 0 i db.database chT _ ("_" ++ n) hres
      (by
        intro e' he'
        rw [alookup_ainsert_self] at he'
        exact ⟨v, by injection he' with hh; exact hh.symm⟩) rest

/-- **C8.** A successful `set_value(p, n, v)` on a canonical node path
returns `True` exactly when the node at `p` held no entry under the
internal key `'_' + n` before the call, and afterwards `get_value(p, n)`
returns the value just stored. -/
theorem set_value_reports {V : Type} (db db' : TaskDatabase V)
    (cs : List String) (n : String) (v : V) (b : Bool) (hns : NoSlash cs)
    (i : Nat) (chT : List (String × Entry V))
    (hres : goToPath db (mkPath cs) = .ok (.node i chT))
    (h : set_value db (mkPath cs) n v = .ok (db', b)) :
    (b = true ↔ alookup chT ("_" ++ n) = none) ∧
    get_value db' (mkPath cs) n = .ok (.val v) := by
  rw [goToPath_mkPath db cs hns] at hres
  obtain ⟨i', chT', hres', hb, hdb, _⟩ := set_value_ok db db' cs n v b hns h
  rw [hres] at hres'
  have hieq : i' = i ∧ chT' = chT := by
    have := hres'
    simp only [Except.ok.injEq, Entry.node.injEq] at this
    exact ⟨this.1.symm, this.2.symm⟩
  obtain ⟨hi, hch⟩ := hieq
  rw [hch] at hb hdb
  constructor
  · rw [hb]
    cases alookup chT ("_" ++ n) <;> simp
  · have hgo : goToPath db' (mkPath cs) =
        .ok (.node i (ainsert chT ("_" ++ n) (.val v))) := by
      rw [goToPath_mkPath db' cs hns, hdb]
      exact goEntry_replaceL_self cs 0 i db.database chT _ hres
    rw [get_value_eq]
    simp only [hgo, alookup_ainsert_self]

/-- Anatomy of `delete_value` on a resolved canonical path. -/
theorem delete_value_resolved {V : Type} (db : TaskDatabase V)
    (cs : List String) (n : String) (hns : NoSlash cs) (i : Nat)
    (chT : List (String × Entry V))
    (hres : goEntry (.node 0 db.database) cs = .ok (.node i chT)) :
    delete_value db (mkPath cs) n =
      if (alookup chT ("_" ++ n)).isSome then
        .ok ⟨replaceL db.database cs (aerase chT ("_" ++ n)), db.nextId⟩
      else .error .valueError := by
  unfold delete_value
  rw [modifyDB_mkPath db cs hns]
  rw [modifyL_resolved cs db.database 0 i chT _ hres]
  by_cases hs : (alookup chT ("_" ++ n)).isSome
  · rw [if_pos hs, if_pos hs]
  · rw [if_neg hs, if_neg hs]

/-- **C9 (amended).** On a canonical node path of a reachable state,
`delete_value(p, n)` raises `ValueError` exactly when the node at `p`
holds no entry keyed `'_' + n` (and, since the method checks before
mutating, raising leaves the state unchanged — in this embedding an
`.error` result carries no new state).  When the entry exists it is
removed, and every value and node observation not at or below the removed
entry is unchanged (a node stored under `'_' + n` itself disappears with
its contents). -/
theorem delete_value_spec {V : Type} (db : TaskDatabase V)
    (cs : List String) (n : String) (hns : NoSlash cs)
    (hreach : Reachable db) (i : Nat) (chT : List (String × Entry V))
    (hres : goToPath db (mkPath cs) = .ok (.node i chT)) :
    (delete_value db (mkPath cs) n = .error .valueError ↔
      alookup chT ("_" ++ n) = none) ∧
    (∀ db', delete_value db (mkPath cs) n = .ok db' →
      valAt db' cs ("_" ++ n) = none ∧
      goToPath db' (mkPath cs) = .ok (.node i (aerase chT ("_" ++ n))) ∧
      (∀ (cs' : List String) (k' : String),
          ¬ (cs ++ ["_" ++ n] <+: cs' ++ [k']) →
          valAt db' cs' k' = valAt db cs' k') ∧
      (∀ cs' : List String, ¬ (cs ++ ["_" ++ n] <+: cs') →
          nodeIdAt db' cs' = nodeIdAt db cs')) := by
  rw [goToPath_mkPath db cs hns] at hres
  have hdel := delete_value_resolved db cs n hns i chT hres
  have hndT : nodupL chT :=
    nodupL_goEntry cs db.database chT 0 i (reachable_nodupL hreach) hres
  constructor
  · constructor
    · intro herr
      cases hl : alookup chT ("_" ++ n) with
      | none => rfl
      | some e =>
          rw [hdel, if_pos (by rw [hl]; rfl)] at herr
          exact absurd herr (by simp)
    · intro hnone
      rw [hdel, if_neg (by rw [hnone]; simp)]
  · intro db' hok
    rw [hdel] at hok
    by_cases hs : (alookup chT ("_" ++ n)).isSome
    · rw [if_pos hs] at hok
      simp only [Except.ok.injEq] at hok
      subst hok
      have hkeep : ∀ q, q ≠ ("_" ++ n) →
          alookup (aerase chT ("_" ++ n)) q = alookup chT q :=
        fun q hq => alookup_aerase_ne chT hq
      have hgo : goEntry
          (Entry.node 0 (replaceL db.database cs (aerase chT ("_" ++ n)))) cs =
          .ok (.node i (aerase chT ("_" ++ n))) :=
        goEntry_replaceL_self cs 0 i db.database chT _ hres
      refine ⟨?_, ?_, ?_, ?_⟩
      · unfold valAt valAtE
        simp only [hgo, alookup_aerase_self chT ("_" ++ n)
          (nodupL_keys chT hndT)]
      · rw [goToPath_mkPath _ cs hns]
        exact hgo
      · intro cs' k' hpre
        unfold valAt
        exact valAtE_replaceL cs 0 i db.database chT _ ("_" ++ n) hres hkeep
          cs' k' hpre
      · intro cs' hpre
        unfold nodeIdAt
        exact nodeIdAtE_replaceL cs 0 i db.database chT _ ("_" ++ n) hres
          hkeep cs' hpre
    · rw [if_neg hs] at hok
      exact absurd hok (by simp)

/-- `create_node(initial, 'root', '_x')`: a node whose name collides with
the internal key of the value name `x`. -/
def udb1 : TaskDatabase Int := ⟨[("_x", .node 1 [])], 2⟩

theorem udb1_reachable : Reachable udb1 :=
  Reachable.step_create Reachable.init
    (show create_node (initDB Int) "root" "_x" = .ok udb1 from rfl)

/-- **C5 counterexample (claim as stated).** In a reachable state holding
a node named `'_x'` under the root, `set_value('root', 'x', 0)` succeeds
and silently *removes that node* (the internal key `'_' + 'x'` collides
with the node's name), contradicting "no node is added or removed". -/
theorem set_value_removes_node :
    Reachable udb1 ∧
    set_value udb1 "root" "x" (0 : Int) =
      .ok (⟨[("_x", .val 0)], 2⟩, false) ∧
    nodeIdAt udb1 ["_x"] = some 1 ∧
    nodeIdAt (⟨[("_x", .val 0)], 2⟩ : TaskDatabase Int) ["_x"] = none :=
  ⟨udb1_reachable, rfl, rfl, rfl⟩

/-- `create_node(udb1, 'root/_x', 'b')`: the colliding node gets a child
node. -/
def udb2 : TaskDatabase Int := ⟨[("_x", .node 1 [("b", .node 2 [])])], 3⟩

theorem udb2_reachable : Reachable udb2 :=
  Reachable.step_create udb1_reachable
    (show create_node udb1 "root/_x" "b" = .ok udb2 from rfl)

/-- **C9 counterexample (claim as stated).** In a reachable state where
the root holds a *node* named `'_x'` with a child node `b`,
`delete_value('root', 'x')` succeeds (it does not raise although no value
entry `x` was ever set) and removes the node `'_x'` together with its
child node `b` — so an entry/node other than the deleted entry does not
survive, contradicting "every other entry and node is unchanged". -/
theorem delete_value_removes_other_nodes :
    Reachable udb2 ∧
    delete_value udb2 "root" "x" = .ok ⟨[], 3⟩ ∧
    nodeIdAt udb2 ["_x", "b"] = some 2 ∧
    nodeIdAt (⟨[], 3⟩ : TaskDatabase Int) ["_x", "b"] = none :=
  ⟨udb2_reachable, rfl, rfl, rfl⟩

/-- `set_value(wdb1, 'root/a', 'x', 0)`: state with one value entry. -/
def wdb2 : TaskDatabase Int := ⟨[("a", .node 1 [("_x", .val 0)])], 2⟩

theorem wdb2_reachable : Reachable wdb2 :=
  Reachable.step_set wdb1_reachable
    (show set_value wdb1 "root/a" "x" (0 : Int) = .ok (wdb2, true) from rfl)

theorem set_value_frame_witness :
    valAt wdb2 [] "_y" = valAt wdb1 [] "_y" :=
  (set_value_frame wdb1 wdb2 ["a"] "x" 0 true (by decide)
    (show set_value wdb1 (mkPath ["a"]) "x" (0 : Int) = .ok (wdb2, true)
      from rfl)).1 [] "_y" (by decide)

theorem set_value_reports_witness :
    (true = true ↔ alookup ([] : List (String × Entry Int)) ("_" ++ "x")
      = none) ∧
    get_value wdb2 (mkPath ["a"]) "x" = .ok (.val 0) :=
  set_value_reports wdb1 wdb2 ["a"] "x" 0 true (by decide) 1 [] rfl
    (show set_value wdb1 (mkPath ["a"]) "x" (0 : Int) = .ok (wdb2, true)
      from rfl)

theorem delete_value_spec_witness :
    valAt (⟨[("a", Entry.node 1 [])], 2⟩ : TaskDatabase Int) ["a"]
      ("_" ++ "x") = none :=
  ((delete_value_spec wdb2 ["a"] "x" (by decide) wdb2_reachable 1
    [("_x", Entry.val 0)] rfl).2 ⟨[("a", Entry.node 1 [])], 2⟩ rfl).1

theorem get_value_scoped_witness :
    get_value wdb2 (mkPath ["a"]) "x" =
      match scopeLookup wdb2.database ["a"] ("_" ++ "x") with
      | some e => .ok e
      | none => .error .keyError :=
  get_value_scoped wdb2 ["a"] "x" (by decide) 1 [("_x", Entry.val 0)] rfl

/-! ## Listing accessible entries (claim C10) -/

/-- `isinstance(·, DatabaseNode)`. -/
def isNode {V : Type} : Entry V → Bool
  | .node _ _ => true
  | .val _ => false

/-- The names collected at one node by `list_accessible_entries`: keys of
non-node entries with the leading underscore removed (`key[1:]`). -/
def valueNames {V : Type} (ch : List (String × Entry V)) : List String :=
  (ch.filter (fun p => ! isNode p.2)).map (fun p => p.1.drop 1)

/-- `TaskDatabase.excluded` (task_database.py line 28). -/
def excluded : List String := ["threads", "instrs"]

/-- The collecting loop of `TaskDatabase.list_accessible_entries`
(lines 145-179): gather the value names at the node and at each ancestor
obtained by `rpartition('/')[0]`, stopping at `'root'`.  On an input whose
upward walk never reaches `'root'` (for example the empty string) the
Python loop runs forever; the model returns the explicit error
`.nonTermination` there. -/
def laeEntries {V : Type} (db : TaskDatabase V) (node_path : String) :
    Except DBErr (List String) :=
  if node_path = "root" then .ok (valueNames db.database)
  else
    match goToPath db node_path with
    | .error e => .error e
    | .ok (.val _) => .error .typeError
    | .ok (.node _ ch) =>
        if h : node_path = rpartFst node_path then .error .nonTermination
        else
          match laeEntries db (rpartFst node_path) with
          | .error e => .error e
          | .ok rest => .ok (valueNames ch ++ rest)
termination_by node_path.length
decreasing_by exact rpartFst_length_lt node_path h

/-- `TaskDatabase.list_accessible_entries`: collect, drop (at most) one
occurrence of each excluded name (`entries.remove` deletes the first
occurrence), and sort. -/
def list_accessible_entries {V : Type} (db : TaskDatabase V)
    (node_path : String) : Except DBErr (List String) :=
  match laeEntries db node_path with
  | .error e => .error e
  | .ok entries =>
      .ok (List.insertionSort (· ≤ ·)
        (excluded.foldl (fun es ex => if ex ∈ es then es.erase ex else es)
          entries))

theorem laeEntries_eq {V : Type} (db : TaskDatabase V) (node_path : String) :
    laeEntries db node_path =
      if node_path = "root" then .ok (valueNames db.database)
      else
        match goToPath db node_path with
        | .error e => .error e
        | .ok (.val _) => .error .typeError
        | .ok (.node _ ch) =>
            if node_path = rpartFst node_path then .error .nonTermination
            else
              match laeEntries db (rpartFst node_path) with
              | .error e => .error e
              | .ok rest => .ok (valueNames ch ++ rest) := by
  rw [laeEntries]
  by_cases hr : node_path = "root"
  · rw [if_pos hr, if_pos hr]
  · rw [if_neg hr, if_neg hr]
    cases goToPath db node_path with
    | error e => rfl
    | ok e =>
        cases e with
        | val v => rfl
        | node i ch =>
            simp only []
            split <;> rfl

/-- Specification-side definition, following the words of claim C10: the
value names stored at the node at `cs` and at every ancestor up to and
including the root, listed from the node upwards (`none` when the path
does not resolve through nodes). -/
def chainNames {V : Type} (ch : List (String × Entry V)) :
    List String → Option (List String)
  | [] => some (valueNames ch)
  | k :: ks =>
      match alookup ch k with
      | some (.node _ ch') =>
          match chainNames ch' ks with
          | some deeper => some (deeper ++ valueNames ch)
          | none => none
      | _ => none

theorem chainNames_resolves {V : Type} (cs : List String)
    (ch : List (String × Entry V)) (j : Nat) (names : List String)
    (h : chainNames ch cs = some names) :
    ∃ i chT, goEntry (.node j ch) cs = .ok (.node i chT) := by
  induction cs generalizing ch j names with
  | nil => exact ⟨j, ch, by rw [goEntry]⟩
  | cons k ks ih =>
      simp only [chainNames] at h
      cases hl : alookup ch k with
      | none => rw [hl] at h; simp at h
      | some e₀ =>
          rw [hl] at h
          cases e₀ with
          | val v => simp at h
          | node j₁ ch₁ =>
              simp only [] at h
              cases hc : chainNames ch₁ ks with
              | none => rw [hc] at h; simp at h
              | some deeper =>
                  obtain ⟨i, chT, hres⟩ := ih ch₁ j₁ deeper hc
                  exact ⟨i, chT, by simp only [goEntry, hl]; exact hres⟩

theorem chainNames_append {V : Type} (cs : List String)
    (ch₀ : List (String × Entry V)) (c : String) (j i : Nat)
    (ch : List (String × Entry V))
    (hres : goEntry (.node j ch₀) (cs ++ [c]) = .ok (.node i ch)) :
    chainNames ch₀ (cs ++ [c]) =
      match chainNames ch₀ cs with
      | some ns => some (valueNames ch ++ ns)
      | none => none := by
  induction cs generalizing ch₀ j with
  | nil =>
      simp only [List.nil_append, goEntry] at hres
      cases hl : alookup ch₀ c with
      | none => rw [hl] at hres; exact absurd hres (by simp)
      | some e' =>
          rw [hl] at hres
          cases e' with
          | val v => simp [goEntry] at hres
          | node j' ch₁ =>
              have hres' : Entry.node j' ch₁ = Entry.node (V := V) i ch := by
                simpa [goEntry] using hres
              cases hres'
              simp only [List.nil_append, chainNames, hl]
  | cons k ks ih =>
      simp only [List.cons_append, goEntry] at hres
      cases hl : alookup ch₀ k with
      | none => rw [hl] at hres; exact absurd hres (by simp)
      | some e' =>
          rw [hl] at hres
          cases e' with
          | val v =>
              exfalso
              cases ks <;> simp [goEntry] at hres
          | node j' ch₁ =>
              have hres' : goEntry (Entry.node j' ch₁) (ks ++ [c]) =
                  Except.ok (Entry.node i ch) := hres
              have hrec := ih ch₁ j' hres'
              simp only [List.cons_append, List.append_eq, chainNames, hl]
              rw [hrec]
              cases chainNames ch₁ ks <;> simp

theorem laeEntries_chainNames {V : Type} (db : TaskDatabase V)
    (cs : List String) (hns : NoSlash cs) (names : List String)
    (hchain : chainNames db.database cs = some names) :
    laeEntries db (mkPath cs) = .ok names := by
  induction cs using List.reverseRecOn generalizing names with
  | nil =>
      simp only [chainNames] at hchain
      cases hchain
      rw [laeEntries_eq]
      rw [if_pos (show mkPath [] = "root" from rfl)]
  | append_singleton cs' c ih =>
      have hns' : NoSlash cs' := fun x hx => hns x (List.mem_append_left _ hx)
      have hc : '/' ∉ c.data := hns c (List.mem_append_right _ (by simp))
      obtain ⟨i, chT, hres⟩ :=
        chainNames_resolves (cs' ++ [c]) db.database 0 names hchain
      have happ := chainNames_append cs' db.database c 0 i chT hres
      rw [happ] at hchain
      cases hcn : chainNames db.database cs' with
      | none => rw [hcn] at hchain; simp at hchain
      | some ns' =>
          rw [hcn] at hchain
          simp only [Option.some.injEq] at hchain
          have hne : mkPath (cs' ++ [c]) ≠ "root" := by
            intro hh
            have := (mkPath_eq_root_iff _ hns).mp hh
            simp at this
          have hstall : mkPath (cs' ++ [c]) ≠ rpartFst (mkPath (cs' ++ [c])) := by
            rw [rpartFst_mkPath cs' c hc]
            exact mkPath_append_ne cs' c
          rw [laeEntries_eq, if_neg hne, goToPath_mkPath db _ hns, hres]
          simp only [rpartFst_mkPath cs' c hc,
            if_neg (mkPath_append_ne cs' c), ih hns' ns' hcn]
          rw [← hchain]

/-- **C10.** On a canonical path whose chain of nodes carries the value
names `names` (one occurrence per level), `list_accessible_entries`
returns a sorted list whose multiset is `names` minus at most one
occurrence of each excluded name (`'threads'`, `'instrs'`), whichever node
it came from. -/
theorem list_accessible_entries_spec {V : Type} (db : TaskDatabase V)
    (cs : List String) (hns : NoSlash cs) (names : List String)
    (hchain : chainNames db.database cs = some names) :
    ∃ l, list_accessible_entries db (mkPath cs) = .ok l ∧
      l.Sorted (· ≤ ·) ∧ l.Perm ((names.erase "threads").erase "instrs") := by
  have hstep : ∀ (es : List String) (ex : String),
      (if ex ∈ es then es.erase ex else es) = es.erase ex := by
    intro es ex
    by_cases hm : ex ∈ es
    · rw [if_pos hm]
    · rw [if_neg hm, List.erase_of_not_mem hm]
  have hfold : excluded.foldl
      (fun es ex => if ex ∈ es then es.erase ex else es) names =
      (names.erase "threads").erase "instrs" := by
    simp only [excluded, List.foldl_cons, List.foldl_nil]
    rw [hstep, hstep]
  refine ⟨List.insertionSort (· ≤ ·) ((names.erase "threads").erase "instrs"),
    ?_, ?_, ?_⟩
  · have heq : list_accessible_entries db (mkPath cs) =
        .ok (List.insertionSort (· ≤ ·)
          (excluded.foldl (fun es ex => if ex ∈ es then es.erase ex else es)
            names)) := by
      unfold list_accessible_entries
      rw [laeEntries_chainNames db cs hns names hchain]
    rw [heq, hfold]
  · exact List.sorted_insertionSort _ _
  · exact List.perm_insertionSort _ _

theorem list_accessible_entries_spec_witness :
    ∃ l, list_accessible_entries wdb2 (mkPath ["a"]) = .ok l ∧
      l.Sorted (· ≤ ·) ∧
      l.Perm (((["x"] : List String).erase "threads").erase "instrs") :=
  list_accessible_entries_spec wdb2 ["a"] (by decide) ["x"] rfl

/-! ## Lock discipline in running mode (claim C6)

After `prepare_for_running` (`self._lock = Lock(); self._running = True`,
lines 292-299) the value methods guard *part* of their work with the one
shared lock.  The traces below record, in source order, each access the
running-mode code path makes to the shared database dicts and where the
lock is acquired and released:

* `set_value` (lines 56-66): `self._go_to_path(node_path)` reads the
  shared dict structure, then `safe_value_name not in node` reads the
  node's dict — both before `self._lock.acquire()`; only the write
  `node[safe_value_name] = value` sits between acquire and release.
* `get_value` (lines 95-105): per upward step,
  `self._go_to_path(assumed_path)` and `safe_value_name in assumed_node`
  run unlocked; when found, the read `assumed_node[safe_value_name]` is
  the only access between acquire and release.
* `delete_value` (lines 130-140): traversal and membership test unlocked;
  `del node[safe_value_name]` between acquire and release. -/

inductive LockEv : Type where
  | acquire : LockEv
  | release : LockEv
  | access : String → LockEv
  deriving DecidableEq

/-- Trace of `set_value` in running mode. -/
def setValueRunningTrace : List LockEv :=
  [.access "go_to_path traversal", .access "membership test",
   .acquire, .access "entry write", .release]

/-- Trace of `get_value` in running mode, with `k` upward retries before
the entry is found. -/
def getValueRunningTrace : Nat → List LockEv
  | 0 => [.access "go_to_path traversal", .access "membership test",
          .acquire, .access "entry read", .release]
  | k + 1 => .access "go_to_path traversal" :: .access "membership test" ::
      getValueRunningTrace k

/-- Trace of `delete_value` in running mode. -/
def deleteValueRunningTrace : List LockEv :=
  [.access "go_to_path traversal", .access "membership test",
   .acquire, .access "entry delete", .release]

/-- The accesses performed while the lock is held (`d` = lock depth). -/
def lockedAccs : List LockEv → Nat → List String
  | [], _ => []
  | .acquire :: t, d => lockedAccs t (d + 1)
  | .release :: t, d => lockedAccs t (d - 1)
  | .access s :: t, d => if 0 < d then s :: lockedAccs t d else lockedAccs t d

/-- The accesses performed without holding the lock. -/
def unlockedAccs : List LockEv → Nat → List String
  | [], _ => []
  | .acquire :: t, d => unlockedAccs t (d + 1)
  | .release :: t, d => unlockedAccs t (d - 1)
  | .access s :: t, d =>
      if 0 < d then unlockedAccs t d else s :: unlockedAccs t d

/-- Whether every shared-dict access of a trace happens under the lock. -/
def allAccessesLocked (tr : List LockEv) : Bool :=
  (unlockedAccs tr 0).isEmpty

/-- **C6 counterexample (claim as stated).** In running mode `set_value`
accesses the shared dicts twice (path traversal and the membership test
that decides the return value) *before* acquiring the lock, so not every
access is performed while holding the mutex. -/
theorem set_value_accesses_outside_lock :
    allAccessesLocked setValueRunningTrace = false ∧
    unlockedAccs setValueRunningTrace 0 =
      ["go_to_path traversal", "membership test"] :=
  ⟨rfl, rfl⟩

/-- **C6 (amended).** In running mode the single entry write / read /
delete of `set_value`, `get_value` and `delete_value` is performed while
holding the one shared lock, but the path traversal and the membership
test of each method run outside it. -/
theorem lock_discipline :
    lockedAccs setValueRunningTrace 0 = ["entry write"] ∧
    unlockedAccs setValueRunningTrace 0 =
      ["go_to_path traversal", "membership test"] ∧
    lockedAccs deleteValueRunningTrace 0 = ["entry delete"] ∧
    unlockedAccs deleteValueRunningTrace 0 =
      ["go_to_path traversal", "membership test"] ∧
    (∀ k, lockedAccs (getValueRunningTrace k) 0 = ["entry read"]) ∧
    (∀ k, unlockedAccs (getValueRunningTrace k) 0 =
      List.flatten (List.replicate (k + 1)
        ["go_to_path traversal", "membership test"])) := by
  refine ⟨rfl, rfl, rfl, rfl, ?_, ?_⟩
  · intro k
    induction k with
    | zero => rfl
    | succ k ih =>
        simp only [getValueRunningTrace, lockedAccs,
          if_neg (show ¬ (0 : Nat) < 0 by decide)]
        exact ih
  · intro k
    induction k with
    | zero => rfl
    | succ k ih =>
        simp only [getValueRunningTrace, unlockedAccs,
          if_neg (show ¬ (0 : Nat) < 0 by decide)]
        rw [ih]
        rfl

theorem lock_discipline_witness :
    lockedAccs (getValueRunningTrace 2) 0 = ["entry read"] :=
  lock_discipline.2.2.2.2.1 2

/-! ## `ArrayExtremaTask.perform` (claim C7)

From `src/hqc_meas/tasks/tasks_util/array_tasks.py` lines 35-51.  Database
values are modelled by `PyV`: a stored number, a numpy integer index, or a
one-dimensional numpy array.  Array cells are modelled as integers — the
claim is about which entries `perform` writes and that they are the first
index and the value of the array's maximum/minimum, which only uses the
total order of the cells. -/

inductive PyV : Type where
  | i : Int → PyV
  | n : Nat → PyV
  | arr : List Int → PyV
  deriving DecidableEq

/-- `np.argmax` over a non-empty tail: `best`/`bestV` are the index and
value of the running maximum, `i` the index of the head of the remaining
list; a later cell replaces the running maximum only when strictly
greater, so the first maximal index wins. -/
def argmaxAux (best : Nat) (bestV : Int) (i : Nat) : List Int → Nat
  | [] => best
  | x :: xs =>
      if bestV < x then argmaxAux i x (i + 1) xs
      else argmaxAux best bestV (i + 1) xs

/-- `np.argmax`: index of the first occurrence of the maximum
(`np.argmax` raises on an empty array; the `0` default is unreachable
under the claim's non-empty hypothesis). -/
def argmax : List Int → Nat
  | [] => 0
  | x :: xs => argmaxAux 0 x 1 xs

/-- `np.argmin`, dually. -/
def argminAux (best : Nat) (bestV : Int) (i : Nat) : List Int → Nat
  | [] => best
  | x :: xs =>
      if x < bestV then argminAux i x (i + 1) xs
      else argminAux best bestV (i + 1) xs

def argmin : List Int → Nat
  | [] => 0
  | x :: xs => argminAux 0 x 1 xs

theorem argmaxAux_correct (xs : List Int) :
    ∀ (a : List Int) (i best : Nat) (bestV : Int),
      a.drop i = xs → i ≤ a.length → best < i → a.getD best 0 = bestV →
      (∀ m < i, a.getD m 0 ≤ bestV) →
      argmaxAux best bestV i xs < a.length ∧
      (∀ m < a.length, a.getD m 0 ≤ a.getD (argmaxAux best bestV i xs) 0) := by
  induction xs with
  | nil =>
      intro a i best bestV hdrop hile hlt hval hmax
      have hlen : a.length ≤ i := by
        have := congrArg List.length hdrop
        simp only [List.length_drop, List.length_nil] at this
        omega
      simp only [argmaxAux]
      refine ⟨by omega, ?_⟩
      intro m hm
      calc a.getD m 0 ≤ bestV := hmax m (by omega)
        _ = a.getD best 0 := hval.symm
  | cons x t ih =>
      intro a i best bestV hdrop hile hlt hval hmax
      have hilen : i < a.length := by
        have := congrArg List.length hdrop
        simp only [List.length_drop, List.length_cons] at this
        omega
      have hai : a.getD i 0 = x := by
        have h0 : (a.drop i).getD 0 0 = x := by rw [hdrop]; rfl
        rwa [List.getD_eq_getElem?_getD, List.getElem?_drop,
          Nat.add_zero, ← List.getD_eq_getElem?_getD] at h0
      have hdrop' : a.drop (i + 1) = t := by
        have : a.drop (i + 1) = (a.drop i).drop 1 := by
          rw [List.drop_drop, Nat.add_comm]
        rw [this, hdrop]
        rfl
      simp only [argmaxAux]
      by_cases hcmp : bestV < x
      · rw [if_pos hcmp]
        exact ih a (i + 1) i x hdrop' (by omega) (by omega) hai
          (by
            intro m hm
            by_cases hmi : m < i
            · exact le_trans (hmax m hmi) (le_of_lt hcmp)
            · have : m = i := by omega
              rw [this, hai])
      · rw [if_neg hcmp]
        exact ih a (i + 1) best bestV hdrop' (by omega) (by omega) hval
          (by
            intro m hm
            by_cases hmi : m < i
            · exact hmax m hmi
            · have : m = i := by omega
              rw [this, hai]
              omega)

/-- `np.argmax` returns a valid index of a maximal cell. -/
theorem argmax_spec (a : List Int) (h : a ≠ []) :
    argmax a < a.length ∧
    (∀ m < a.length, a.getD m 0 ≤ a.getD (argmax a) 0) := by
  cases a with
  | nil => exact absurd rfl h
  | cons x xs =>
      simp only [argmax]
      exact argmaxAux_correct xs (x :: xs) 1 0 x rfl
        (by simp only [List.length_cons]; omega) (by omega) rfl
        (by
          intro m hm
          have : m = 0 := by omega
          rw [this]
          rfl)

theorem argminAux_correct (xs : List Int) :
    ∀ (a : List Int) (i best : Nat) (bestV : Int),
      a.drop i = xs → i ≤ a.length → best < i → a.getD best 0 = bestV →
      (∀ m < i, bestV ≤ a.getD m 0) →
      argminAux best bestV i xs < a.length ∧
      (∀ m < a.length, a.getD (argminAux best bestV i xs) 0 ≤ a.getD m 0) := by
  induction xs with
  | nil =>
      intro a i best bestV hdrop hile hlt hval hmin
      have hlen : a.length ≤ i := by
        have := congrArg List.length hdrop
        simp only [List.length_drop, List.length_nil] at this
        omega
      simp only [argminAux]
      refine ⟨by omega, ?_⟩
      intro m hm
      calc a.getD best 0 = bestV := hval
        _ ≤ a.getD m 0 := hmin m (by omega)
  | cons x t ih =>
      intro a i best bestV hdrop hile hlt hval hmin
      have hilen : i < a.length := by
        have := congrArg List.length hdrop
        simp only [List.length_drop, List.length_cons] at this
        omega
      have hai : a.getD i 0 = x := by
        have h0 : (a.drop i).getD 0 0 = x := by rw [hdrop]; rfl
        rwa [List.getD_eq_getElem?_getD, List.getElem?_drop,
          Nat.add_zero, ← List.getD_eq_getElem?_getD] at h0
      have hdrop' : a.drop (i + 1) = t := by
        have : a.drop (i + 1) = (a.drop i).drop 1 := by
          rw [List.drop_drop, Nat.add_comm]
        rw [this, hdrop]
        rfl
      simp only [argminAux]
      by_cases hcmp : x < bestV
      · rw [if_pos hcmp]
        exact ih a (i + 1) i x hdrop' (by omega) (by omega) hai
          (by
            intro m hm
            by_cases hmi : m < i
            · exact le_trans (le_of_lt hcmp) (hmin m hmi)
            · have : m = i := by omega
              rw [this, hai])
      · rw [if_neg hcmp]
        exact ih a (i + 1) best bestV hdrop' (by omega) (by omega) hval
          (by
            intro m hm
            by_cases hmi : m < i
            · exact hmin m hmi
            · have : m = i := by omega
              rw [this, hai]
              omega)

/-- `np.argmin` returns a valid index of a minimal cell. -/
theorem argmin_spec (a : List Int) (h : a ≠ []) :
    argmin a < a.length ∧
    (∀ m < a.length, a.getD (argmin a) 0 ≤ a.getD m 0) := by
  cases a with
  | nil => exact absurd rfl h
  | cons x xs =>
      simp only [argmin]
      exact argminAux_correct xs (x :: xs) 1 0 x rfl
        (by simp only [List.length_cons]; omega) (by omega) rfl
        (by
          intro m hm
          have : m = 0 := by omega
          rw [this]
          rfl)

/-- Modelled from the spec: `SimpleTask.get_from_database` (the
`base_tasks.py` module is not part of the sources) — a task "writing
results into the shared database" reads values through the scoped lookup
`TaskDatabase.get_value` starting at the task's own database node. -/
def get_from_database {V : Type} (db : TaskDatabase V)
    (task_path name : String) : Except DBErr (Entry V) :=
  get_value db task_path name

/-- Modelled from the spec: `SimpleTask.write_in_database` (the
`base_tasks.py` module is not part of the sources) — a task writes a named
result entry at its own database node via `TaskDatabase.set_value`. -/
def write_in_database {V : Type} (db : TaskDatabase V)
    (task_path name : String) (v : V) : Except DBErr (TaskDatabase V) :=
  match set_value db task_path name v with
  | .error e => .error e
  | .ok (db', _) => .ok db'

/-- `self.target_array[1:-1]`: strip the surrounding quote characters. -/
def stripEnds (s : String) : String := (s.drop 1).dropRight 1

/-- The `mode` enum of `ArrayExtremaTask`: `'Max'`, `'Min'`,
`'Max & min'`. -/
inductive ExtremaMode : Type where
  | max : ExtremaMode
  | min : ExtremaMode
  | maxAndMin : ExtremaMode
  deriving DecidableEq

/-- `ArrayExtremaTask.perform` (array_tasks.py lines 35-51).  Points where
the Python code raises are modelled by errors: a non-empty `column_name`
indexes a plain 1-D array (`array[self.column_name]` raises), `np.argmax`
/ `np.argmin` raise `ValueError` on an empty array, and a non-array
database value fails at `np.argmax`. -/
def ArrayExtremaTask_perform (db : TaskDatabase PyV)
    (task_path target_array column_name : String) (mode : ExtremaMode) :
    Except DBErr (TaskDatabase PyV) :=
  match get_from_database db task_path (stripEnds target_array) with
  | .error e => .error e
  | .ok (.val (.arr a)) =>
      if column_name.isEmpty then
        match ((if mode = ExtremaMode.max ∨ mode = ExtremaMode.maxAndMin then
            if a = [] then .error .valueError
            else
              match write_in_database db task_path "max_ind"
                  (.n (argmax a)) with
              | .error e => .error e
              | .ok d => write_in_database d task_path "max_value"
                  (.i (a.getD (argmax a) 0))
          else .ok db) : Except DBErr (TaskDatabase PyV)) with
        | .error e => .error e
        | .ok d =>
            if mode = ExtremaMode.min ∨ mode = ExtremaMode.maxAndMin then
              if a = [] then .error .valueError
              else
                match write_in_database d task_path "min_ind"
                    (.n (argmin a)) with
                | .error e => .error e
                | .ok d' => write_in_database d' task_path "min_value"
                    (.i (a.getD (argmin a) 0))
            else .ok d
      else .error .typeError
  | .ok _ => .error .typeError

/-- A resolved `set_value` computes to an explicit new state. -/
theorem set_value_resolved {V : Type} (db : TaskDatabase V)
    (cs : List String) (n : String) (v : V) (hns : NoSlash cs) (i : Nat)
    (chT : List (String × Entry V))
    (hres : goEntry (.node 0 db.database) cs = .ok (.node i chT)) :
    set_value db (mkPath cs) n v =
      .ok (⟨replaceL db.database cs (ainsert chT ("_" ++ n) (.val v)),
        db.nextId⟩, (alookup chT ("_" ++ n)).isNone) := by
  unfold set_value
  rw [modifyDB_mkPath db cs hns, modifyL_resolved cs db.database 0 i chT _ hres]

/-- One write of a task result: the new state, the stored value, and the
frame over everything else. -/
theorem write_step {V : Type} (db : TaskDatabase V) (cs : List String)
    (hns : NoSlash cs) (i : Nat) (chT : List (String × Entry V))
    (hres : goEntry (.node 0 db.database) cs = .ok (.node i chT))
    (n : String) (v : V) :
    ∃ db', set_value db (mkPath cs) n v =
        .ok (db', (alookup chT ("_" ++ n)).isNone) ∧
      goEntry (.node 0 db'.database) cs =
        .ok (.node i (ainsert chT ("_" ++ n) (.val v))) ∧
      valAt db' cs ("_" ++ n) = some v ∧
      (∀ (cs' : List String) (k' : String),
          ¬ (cs ++ ["_" ++ n] <+: cs' ++ [k']) →
          valAt db' cs' k' = valAt db cs' k') ∧
      (∀ cs' : List String, ¬ (cs ++ ["_" ++ n] <+: cs') →
          nodeIdAt db' cs' = nodeIdAt db cs') := by
  refine ⟨⟨replaceL db.database cs (ainsert chT ("_" ++ n) (.val v)),
    db.nextId⟩, set_value_resolved db cs n v hns i chT hres, ?_, ?_, ?_, ?_⟩
  · exact goEntry_replaceL_self cs 0 i db.database chT _ hres
  · unfold valAt valAtE
    simp only [goEntry_replaceL_self cs 0 i db.database chT _ hres,
      alookup_ainsert_self]
  · intro cs' k' hpre
    unfold valAt
    exact valAtE_replaceL cs 0 i db.database chT _ ("_" ++ n) hres
      (fun q hq => alookup_ainsert_ne chT _ hq) cs' k' hpre
  · intro cs' hpre
    unfold nodeIdAt
    exact nodeIdAtE_replaceL cs 0 i db.database chT _ ("_" ++ n) hres
      (fun q hq => alookup_ainsert_ne chT _ hq) cs' hpre

/-- Two paths `cs ++ [k₁]`, `cs ++ [k₂]` are prefix-related iff the final
keys agree. -/
theorem append_key_prefix_iff (cs : List String) (k₁ k₂ : String) :
    (cs ++ [k₁] <+: cs ++ [k₂]) ↔ k₁ = k₂ := by
  rw [List.prefix_append_right_inj]
  constructor
  · intro h
    have := List.cons_prefix_cons.mp h
    exact this.1
  · intro h
    subst h
    exact List.prefix_refl _

/-- The database entries written by `perform`, per mode. -/
def writtenKeys (mode : ExtremaMode) : List String :=
  (if mode = ExtremaMode.max ∨ mode = ExtremaMode.maxAndMin then
    ["_" ++ "max_ind", "_" ++ "max_value"] else []) ++
  (if mode = ExtremaMode.min ∨ mode = ExtremaMode.maxAndMin then
    ["_" ++ "min_ind", "_" ++ "min_value"] else [])

theorem not_prefix_of_key_ne {cs : List String} {k₁ k₂ : String}
    (hk : k₁ ≠ k₂) : ¬ (cs ++ [k₁] <+: cs ++ [k₂]) :=
  fun h => hk ((append_key_prefix_iff cs k₁ k₂).mp h)

/-- **C7.** For a task whose target resolves to a non-empty 1-D array (no
column selected), `perform` succeeds; it writes the first index and the
value of the array's maximum into the entries `max_ind` and `max_value`
exactly when the mode is `'Max'` or `'Max & min'`, the first index and
value of the minimum into `min_ind` and `min_value` exactly when the mode
is `'Min'` or `'Max & min'`, and changes nothing else; the written index
is in range and its cell is maximal (resp. minimal) among all cells. -/
theorem ArrayExtremaTask_perform_spec (db : TaskDatabase PyV)
    (cs : List String) (target_array : String) (mode : ExtremaMode)
    (a : List Int) (hns : NoSlash cs) (ha : a ≠ [])
    (htgt : get_from_database db (mkPath cs) (stripEnds target_array) =
      .ok (.val (.arr a)))
    (i : Nat) (chT : List (String × Entry PyV))
    (hres : goEntry (.node 0 db.database) cs = .ok (.node i chT)) :
    ∃ db', ArrayExtremaTask_perform db (mkPath cs) target_array "" mode =
        .ok db' ∧
      ((mode = ExtremaMode.max ∨ mode = ExtremaMode.maxAndMin) →
        valAt db' cs ("_" ++ "max_ind") = some (PyV.n (argmax a)) ∧
        valAt db' cs ("_" ++ "max_value") =
          some (PyV.i (a.getD (argmax a) 0))) ∧
      (mode = ExtremaMode.min →
        valAt db' cs ("_" ++ "max_ind") = valAt db cs ("_" ++ "max_ind") ∧
        valAt db' cs ("_" ++ "max_value") =
          valAt db cs ("_" ++ "max_value")) ∧
      ((mode = ExtremaMode.min ∨ mode = ExtremaMode.maxAndMin) →
        valAt db' cs ("_" ++ "min_ind") = some (PyV.n (argmin a)) ∧
        valAt db' cs ("_" ++ "min_value") =
          some (PyV.i (a.getD (argmin a) 0))) ∧
      (mode = ExtremaMode.max →
        valAt db' cs ("_" ++ "min_ind") = valAt db cs ("_" ++ "min_ind") ∧
        valAt db' cs ("_" ++ "min_value") =
          valAt db cs ("_" ++ "min_value")) ∧
      (∀ (cs' : List String) (k' : String),
          (∀ w ∈ writtenKeys mode, ¬ (cs ++ [w] <+: cs' ++ [k'])) →
          valAt db' cs' k' = valAt db cs' k') ∧
      (∀ cs' : List String,
          (∀ w ∈ writtenKeys mode, ¬ (cs ++ [w] <+: cs')) →
          nodeIdAt db' cs' = nodeIdAt db cs') ∧
      argmax a < a.length ∧
      (∀ m < a.length, a.getD m 0 ≤ a.getD (argmax a) 0) ∧
      argmin a < a.length ∧
      (∀ m < a.length, a.getD (argmin a) 0 ≤ a.getD m 0) := by
  obtain ⟨hmaxlt, hmaxge⟩ := argmax_spec a ha
  obtain ⟨hminlt, hminle⟩ := argmin_spec a ha
  cases mode with
  | max =>
      obtain ⟨db₁, hs₁, hres₁, hv₁, hf₁, hn₁⟩ :=
        write_step db cs hns i chT hres "max_ind" (PyV.n (argmax a))
      obtain ⟨db₂, hs₂, hres₂, hv₂, hf₂, hn₂⟩ :=
        write_step db₁ cs hns i _ hres₁ "max_value"
          (PyV.i (a.getD (argmax a) 0))
      have hw1 : write_in_database db (mkPath cs) "max_ind"
          (PyV.n (argmax a)) = .ok db₁ := by
        unfold write_in_database; rw [hs₁]
      have hw2 : write_in_database db₁ (mkPath cs) "max_value"
          (PyV.i (a.getD (argmax a) 0)) = .ok db₂ := by
        unfold write_in_database; rw [hs₂]
      have hwk : writtenKeys ExtremaMode.max =
          ["_" ++ "max_ind", "_" ++ "max_value"] := rfl
      refine ⟨db₂, ?_, ?_, ?_, ?_, ?_, ?_, ?_, hmaxlt, hmaxge, hminlt, hminle⟩
      · unfold ArrayExtremaTask_perform
        simp only [htgt,
          if_pos (show (("" : String).isEmpty) = true from rfl),
          if_pos (show ExtremaMode.max = ExtremaMode.max ∨
            ExtremaMode.max = ExtremaMode.maxAndMin from Or.inl rfl),
          if_neg ha, hw1, hw2,
          if_neg (show ¬ (ExtremaMode.max = ExtremaMode.min ∨
            ExtremaMode.max = ExtremaMode.maxAndMin) by decide)]
        simp [hw1, hw2]
      · intro _
        constructor
        · rw [hf₂ cs ("_" ++ "max_ind")
            (not_prefix_of_key_ne (by decide)), hv₁]
        · exact hv₂
      · intro h; exact absurd h (by decide)
      · intro h; exact absurd h (by decide)
      · intro _
        constructor
        · rw [hf₂ cs ("_" ++ "min_ind") (not_prefix_of_key_ne (by decide)),
            hf₁ cs ("_" ++ "min_ind") (not_prefix_of_key_ne (by decide))]
        · rw [hf₂ cs ("_" ++ "min_value")
            (not_prefix_of_key_ne (by decide)),
            hf₁ cs ("_" ++ "min_value")
            (not_prefix_of_key_ne (by decide))]
      · intro cs' k' hout
        rw [hf₂ cs' k' (hout _ (by rw [hwk]; simp)),
          hf₁ cs' k' (hout _ (by rw [hwk]; simp))]
      · intro cs' hout
        rw [hn₂ cs' (hout _ (by rw [hwk]; simp)),
          hn₁ cs' (hout _ (by rw [hwk]; simp))]
  | min =>
      obtain ⟨db₁, hs₁, hres₁, hv₁, hf₁, hn₁⟩ :=
        write_step db cs hns i chT hres "min_ind" (PyV.n (argmin a))
      obtain ⟨db₂, hs₂, hres₂, hv₂, hf₂, hn₂⟩ :=
        write_step db₁ cs hns i _ hres₁ "min_value"
          (PyV.i (a.getD (argmin a) 0))
      have hw1 : write_in_database db (mkPath cs) "min_ind"
          (PyV.n (argmin a)) = .ok db₁ := by
        unfold write_in_database; rw [hs₁]
      have hw2 : write_in_database db₁ (mkPath cs) "min_value"
          (PyV.i (a.getD (argmin a) 0)) = .ok db₂ := by
        unfold write_in_database; rw [hs₂]
      have hwk : writtenKeys ExtremaMode.min =
          ["_" ++ "min_ind", "_" ++ "min_value"] := rfl
      refine ⟨db₂, ?_, ?_, ?_, ?_, ?_, ?_, ?_, hmaxlt, hmaxge, hminlt, hminle⟩
      · unfold ArrayExtremaTask_perform
        simp only [htgt,
          if_pos (show (("" : String).isEmpty) = true from rfl),
          if_neg (show ¬ (ExtremaMode.min = ExtremaMode.max ∨
            ExtremaMode.min = ExtremaMode.maxAndMin) by decide),
          if_pos (show ExtremaMode.min = ExtremaMode.min ∨
            ExtremaMode.min = ExtremaMode.maxAndMin from Or.inl rfl),
          if_neg ha, hw1, hw2]
        simp [hw1, hw2]
      · intro h; exact absurd h (by decide)
      · intro _
        constructor
        · rw [hf₂ cs ("_" ++ "max_ind")
            (not_prefix_of_key_ne (by decide)),
            hf₁ cs ("_" ++ "max_ind") (not_prefix_of_key_ne (by decide))]
        · rw [hf₂ cs ("_" ++ "max_value")
            (not_prefix_of_key_ne (by decide)),
            hf₁ cs ("_" ++ "max_value")
            (not_prefix_of_key_ne (by decide))]
      · intro _
        constructor
        · rw [hf₂ cs ("_" ++ "min_ind")
            (not_prefix_of_key_ne (by decide)), hv₁]
        · exact hv₂
      · intro h; exact absurd h (by decide)
      · intro cs' k' hout
        rw [hf₂ cs' k' (hout _ (by rw [hwk]; simp)),
          hf₁ cs' k' (hout _ (by rw [hwk]; simp))]
      · intro cs' hout
        rw [hn₂ cs' (hout _ (by rw [hwk]; simp)),
          hn₁ cs' (hout _ (by rw [hwk]; simp))]
  | maxAndMin =>
      obtain ⟨db₁, hs₁, hres₁, hv₁, hf₁, hn₁⟩ :=
        write_step db cs hns i chT hres "max_ind" (PyV.n (argmax a))
      obtain ⟨db₂, hs₂, hres₂, hv₂, hf₂, hn₂⟩ :=
        write_step db₁ cs hns i _ hres₁ "max_value"
          (PyV.i (a.getD (argmax a) 0))
      obtain ⟨db₃, hs₃, hres₃, hv₃, hf₃, hn₃⟩ :=
        write_step db₂ cs hns i _ hres₂ "min_ind" (PyV.n (argmin a))
      obtain ⟨db₄, hs₄, hres₄, hv₄, hf₄, hn₄⟩ :=
        write_step db₃ cs hns i _ hres₃ "min_value"
          (PyV.i (a.getD (argmin a) 0))
      have hw1 : write_in_database db (mkPath cs) "max_ind"
          (PyV.n (argmax a)) = .ok db₁ := by
        unfold write_in_database; rw [hs₁]
      have hw2 : write_in_database db₁ (mkPath cs) "max_value"
          (PyV.i (a.getD (argmax a) 0)) = .ok db₂ := by
        unfold write_in_database; rw [hs₂]
      have hw3 : write_in_database db₂ (mkPath cs) "min_ind"
          (PyV.n (argmin a)) = .ok db₃ := by
        unfold write_in_database; rw [hs₃]
      have hw4 : write_in_database db₃ (mkPath cs) "min_value"
          (PyV.i (a.getD (argmin a) 0)) = .ok db₄ := by
        unfold write_in_database; rw [hs₄]
      have hwk : writtenKeys ExtremaMode.maxAndMin =
          ["_" ++ "max_ind", "_" ++ "max_value",
           "_" ++ "min_ind", "_" ++ "min_value"] := rfl
      refine ⟨db₄, ?_, ?_, ?_, ?_, ?_, ?_, ?_, hmaxlt, hmaxge, hminlt, hminle⟩
      · unfold ArrayExtremaTask_perform
        simp only [htgt,
          if_pos (show (("" : String).isEmpty) = true from rfl),
          if_pos (show ExtremaMode.maxAndMin = ExtremaMode.max ∨
            ExtremaMode.maxAndMin = ExtremaMode.maxAndMin from Or.inr rfl),
          if_pos (show ExtremaMode.maxAndMin = ExtremaMode.min ∨
            ExtremaMode.maxAndMin = ExtremaMode.maxAndMin from Or.inr rfl),
          if_neg ha, hw1, hw2, hw3, hw4]
        simp [hw1, hw2, hw3]
        rw [show a[argmin a]?.getD 0 = a.getD (argmin a) 0 from
          (List.getD_eq_getElem?_getD a _ 0).symm]
        exact hw4
      · intro _
        constructor
        · rw [hf₄ cs ("_" ++ "max_ind")
            (not_prefix_of_key_ne (by decide)),
            hf₃ cs ("_" ++ "max_ind") (not_prefix_of_key_ne (by decide)),
            hf₂ cs ("_" ++ "max_ind") (not_prefix_of_key_ne (by decide)),
            hv₁]
        · rw [hf₄ cs ("_" ++ "max_value")
            (not_prefix_of_key_ne (by decide)),
            hf₃ cs ("_" ++ "max_value")
            (not_prefix_of_key_ne (by decide)), hv₂]
      · intro h; exact absurd h (by decide)
      · intro _
        constructor
        · rw [hf₄ cs ("_" ++ "min_ind")
            (not_prefix_of_key_ne (by decide)), hv₃]
        · exact hv₄
      · intro h; exact absurd h (by decide)
      · intro cs' k' hout
        rw [hf₄ cs' k' (hout _ (by rw [hwk]; simp)),
          hf₃ cs' k' (hout _ (by rw [hwk]; simp)),
          hf₂ cs' k' (hout _ (by rw [hwk]; simp)),
          hf₁ cs' k' (hout _ (by rw [hwk]; simp))]
      · intro cs' hout
        rw [hn₄ cs' (hout _ (by rw [hwk]; simp)),
          hn₃ cs' (hout _ (by rw [hwk]; simp)),
          hn₂ cs' (hout _ (by rw [hwk]; simp)),
          hn₁ cs' (hout _ (by rw [hwk]; simp))]

/-- A task node `a` holding the array entry `arr = [1, 3, 2, 3]`. -/
def adb : TaskDatabase PyV :=
  ⟨[("a", .node 1 [("_arr", .val (.arr [1, 3, 2, 3]))])], 2⟩

theorem ArrayExtremaTask_perform_spec_witness :
    ∃ db', ArrayExtremaTask_perform adb (mkPath ["a"]) "'arr'" ""
        ExtremaMode.maxAndMin = .ok db' ∧
      ((ExtremaMode.maxAndMin = ExtremaMode.max ∨
          ExtremaMode.maxAndMin = ExtremaMode.maxAndMin) →
        valAt db' ["a"] ("_" ++ "max_ind") =
          some (PyV.n (argmax [1, 3, 2, 3])) ∧
        valAt db' ["a"] ("_" ++ "max_value") =
          some (PyV.i (([1, 3, 2, 3] : List Int).getD
            (argmax [1, 3, 2, 3]) 0))) ∧
      (ExtremaMode.maxAndMin = ExtremaMode.min →
        valAt db' ["a"] ("_" ++ "max_ind") =
          valAt adb ["a"] ("_" ++ "max_ind") ∧
        valAt db' ["a"] ("_" ++ "max_value") =
          valAt adb ["a"] ("_" ++ "max_value")) ∧
      ((ExtremaMode.maxAndMin = ExtremaMode.min ∨
          ExtremaMode.maxAndMin = ExtremaMode.maxAndMin) →
        valAt db' ["a"] ("_" ++ "min_ind") =
          some (PyV.n (argmin [1, 3, 2, 3])) ∧
        valAt db' ["a"] ("_" ++ "min_value") =
          some (PyV.i (([1, 3, 2, 3] : List Int).getD
            (argmin [1, 3, 2, 3]) 0))) ∧
      (ExtremaMode.maxAndMin = ExtremaMode.max →
        valAt db' ["a"] ("_" ++ "min_ind") =
          valAt adb ["a"] ("_" ++ "min_ind") ∧
        valAt db' ["a"] ("_" ++ "min_value") =
          valAt adb ["a"] ("_" ++ "min_value")) ∧
      (∀ (cs' : List String) (k' : String),
          (∀ w ∈ writtenKeys ExtremaMode.maxAndMin,
            ¬ (["a"] ++ [w] <+: cs' ++ [k'])) →
          valAt db' cs' k' = valAt adb cs' k') ∧
      (∀ cs' : List String,
          (∀ w ∈ writtenKeys ExtremaMode.maxAndMin,
            ¬ (["a"] ++ [w] <+: cs')) →
          nodeIdAt db' cs' = nodeIdAt adb cs') ∧
      argmax [1, 3, 2, 3] < ([1, 3, 2, 3] : List Int).length ∧
      (∀ m < ([1, 3, 2, 3] : List Int).length,
        ([1, 3, 2, 3] : List Int).getD m 0 ≤
          ([1, 3, 2, 3] : List Int).getD (argmax [1, 3, 2, 3]) 0) ∧
      argmin [1, 3, 2, 3] < ([1, 3, 2, 3] : List Int).length ∧
      (∀ m < ([1, 3, 2, 3] : List Int).length,
        ([1, 3, 2, 3] : List Int).getD (argmin [1, 3, 2, 3]) 0 ≤
          ([1, 3, 2, 3] : List Int).getD m 0) :=
  ArrayExtremaTask_perform_spec adb ["a"] "'arr'" ExtremaMode.maxAndMin
    [1, 3, 2, 3] (by decide) (by decide)
    (by unfold get_from_database; rw [get_value_eq]; rfl) 1
    [("_arr", .val (.arr [1, 3, 2, 3]))] rfl

end HQC
